import Mathlib

/-!
Verification of the ABA framework generator (src/app.py).

This file gives a shallow embedding of the algorithmic core of the
`ABAGenerator` class: `parse_input`, `is_framework_circular`,
`is_framework_atomic`, `get_arguments`, `make_non_circular`, `make_atomic`
and `get_attacks`, together with theorems settling the specification
claims about them.

Python strings are modelled as `String`, Python sets of sentences as
`List String` used up to membership (the code only observes sets through
membership tests, set difference and `sorted(...)`), Python dicts as
association lists (assignment prepends or replaces, lookup finds the most
recent binding), and Python's `sorted` on strings as insertion sort by
code-point lexicographic order.  All definitions are structurally
recursive so that concrete runs reduce inside the kernel.
-/

namespace ABA

/-! ### String ordering (Python `sorted` on str compares code points) -/

def charListLt : List Char → List Char → Bool
  | [], [] => false
  | [], _ :: _ => true
  | _ :: _, [] => false
  | a :: as, b :: bs =>
    if a.val < b.val then true
    else if b.val < a.val then false
    else charListLt as bs

def strLtB (a b : String) : Bool := charListLt a.data b.data

/-- `sorted(...)` on a list of strings. -/
def sortStrs (l : List String) : List String :=
  l.insertionSort (fun a b => strLtB a b = true)

/-- Set formation `set(xs)` observed as a duplicate-free list keeping first
occurrences. -/
def dedupF : List String → List String
  | [] => []
  | a :: as => a :: (dedupF as).filter (fun b => b ≠ a)

/-- `sorted(list(set(l) - set(a)))`. -/
def sortedDiff (l a : List String) : List String :=
  sortStrs (dedupF (l.filter (fun s => !(a.contains s))))

/-! ### Data model -/

/-- A rule `rules[rid] = (head, body)` of the framework. -/
abbrev Rule := String × String × List String

/-- The `ABAGenerator` state: language, assumptions, contraries, rules and
preferences (src/app.py lines 7-13). -/
structure Framework where
  language : List String
  assumptions : List String
  contraries : List (String × String)
  rules : List Rule
  preferences : List (String × String)
  deriving DecidableEq

/-- An argument record as produced by `get_arguments` (id, claim, supporting
assumptions, rule ids used). -/
structure Argument where
  id : String
  claim : String
  assumptions : List String
  rules : List String
  deriving DecidableEq

/-- An attack record as produced by `get_attacks`. -/
structure Attack where
  attacker : String
  attacked : String
  type : String
  deriving DecidableEq

/-- `sorted(self.rules.items())`: rule ids in a dict are unique, so the sort
is by rule id. -/
def sorted_rules (F : Framework) : List Rule :=
  F.rules.insertionSort (fun r s => strLtB r.1 s.1 = true)

/-! ### `get_arguments` (src/app.py lines 137-187) -/

/-- Argument ids `f'a{n}'`. -/
def mkId (n : Nat) : String := "a" ++ Nat.repr n

/-- The base loop: one trivial argument per assumption, in sorted order
(lines 145-151). -/
def baseArgsAux : Nat → List String → List Argument
  | _, [] => []
  | n, s :: rest =>
    { id := mkId (n + 1), claim := s, assumptions := [s], rules := [] }
      :: baseArgsAux (n + 1) rest

/-- `arg_dict` lookup: the (unique) argument with the given claim. -/
def findByClaim (args : List Argument) (c : String) : Option Argument :=
  args.find? (fun a => a.claim == c)

/-- The body scan (lines 159-164): all body sentences must already have
arguments. -/
def collectBodyArgs (args : List Argument) (body : List String) :
    Option (List Argument) :=
  body.mapM (findByClaim args)

/-- Processing one rule inside a pass (lines 158-182). -/
def stepRule (st : List Argument × Bool) (r : Rule) : List Argument × Bool :=
  match collectBodyArgs st.1 r.2.2 with
  | none => st
  | some bodyArgs =>
    let newArg : Argument :=
      { id := mkId (st.1.length + 1)
        claim := r.2.1
        assumptions := bodyArgs.flatMap (fun ba => ba.assumptions)
        rules := bodyArgs.flatMap (fun ba => ba.rules) ++ [r.1] }
    if (findByClaim st.1 r.2.1).isSome then st
    else (st.1 ++ [newArg], true)

/-- One full scan over the sorted rules; returns the new argument list and
the `changed` flag. -/
def onePass (rs : List Rule) (args : List Argument) : List Argument × Bool :=
  rs.foldl stepRule (args, false)

/-- The `while changed` fixed-point loop.  Each changing pass adds at least
one argument whose claim is a rule head that had none, so
`rs.length + 1` passes always reach the fixed point. -/
def deriveLoop (rs : List Rule) : Nat → List Argument → List Argument
  | 0, args => args
  | fuel + 1, args =>
    match onePass rs args with
    | (args2, true) => deriveLoop rs fuel args2
    | (args2, false) => args2

/-- The argument list before the final in-place sort of each argument's
support and derivation sets. -/
def argumentsRaw (F : Framework) : List Argument :=
  deriveLoop (sorted_rules F) (F.rules.length + 1)
    (baseArgsAux 0 (sortStrs (dedupF F.assumptions)))

/-- `get_arguments` (lines 137-187): fixed point plus the final sort of each
argument's assumption and rule sets (lines 184-186). -/
def get_arguments (F : Framework) : List Argument :=
  (argumentsRaw F).map (fun a =>
    { a with assumptions := sortStrs (dedupF a.assumptions)
             rules := sortStrs (dedupF a.rules) })

/-! ### `get_attacks` (src/app.py lines 273-316) -/

/-- Normal-attack records produced for the ordered pair `(a, b)`
(lines 290-303): one record per assumption of `b` whose contrary is
`a`'s claim, unless some assumption of `a` is recorded in `preferences`
as strictly preferred over it. -/
def normalRecords (F : Framework) (a b : Argument) : List Attack :=
  b.assumptions.filterMap (fun assB =>
    match List.lookup assB F.contraries with
    | some contr =>
      if contr = a.claim then
        if a.assumptions.any (fun assA => F.preferences.contains (assA, assB)) then
          none
        else
          some { attacker := a.id, attacked := b.id, type := "normal" }
      else none
    | none => none)

/-- Reverse-attack records produced for the ordered pair `(a, b)`
(lines 304-315): one record per assumption of `a` whose contrary is `b`'s
claim, provided some assumption of `b` is recorded in `preferences` as
strictly preferred over it. -/
def reverseRecords (F : Framework) (a b : Argument) : List Attack :=
  a.assumptions.filterMap (fun assA =>
    match List.lookup assA F.contraries with
    | some contr =>
      if contr = b.claim then
        if b.assumptions.any (fun assB => F.preferences.contains (assB, assA)) then
          some { attacker := b.id, attacked := a.id, type := "reverse" }
        else none
      else none
    | none => none)

/-- `get_attacks` (lines 273-316): the double loop over ordered pairs of
arguments, normal records before reverse records for each pair. -/
def get_attacks (F : Framework) : List Attack :=
  let args := get_arguments F
  args.flatMap (fun a => args.flatMap (fun b =>
    normalRecords F a b ++ reverseRecords F a b))

/-! ### `is_framework_atomic` (src/app.py lines 127-135) -/

/-- All rule bodies contain only assumptions. -/
def is_framework_atomic (F : Framework) : Bool :=
  F.rules.all (fun r => r.2.2.all (fun p => F.assumptions.contains p))

/-! ### `is_framework_circular` (src/app.py lines 90-125) -/

/-- Membership in `non_assumps = set(language) - set(assumptions)`. -/
def nonAssumB (F : Framework) (s : String) : Bool :=
  F.language.contains s && !(F.assumptions.contains s)

/-- The node set of the dependency graph, in first-encounter order
(lines 100-107). -/
def graphNodes (F : Framework) : List String :=
  dedupF (F.rules.flatMap (fun r =>
    (if nonAssumB F r.2.1 then [r.2.1] else [])
      ++ r.2.2.filter (fun b => nonAssumB F b)))

/-- The edge list `head -> body element` over non-assumptions, in
construction order (lines 100-107). -/
def graphEdges (F : Framework) : List (String × String) :=
  F.rules.flatMap (fun r =>
    if nonAssumB F r.2.1 then
      (r.2.2.filter (fun b => nonAssumB F b)).map (fun b => (r.2.1, b))
    else [])

/-- `graph[u]`: the successor list of a node. -/
def graphNeighbors (F : Framework) (u : String) : List String :=
  (graphEdges F).filterMap (fun e => if e.1 = u then some e.2 else none)

/-- The three DFS colors (line 109). -/
inductive Color where
  | white
  | gray
  | black
  deriving DecidableEq

/-- Color map update. -/
def setColor (c : String → Color) (u : String) (col : Color) : String → Color :=
  fun x => if x = u then col else c x

/-- The `for v in graph.get(u, [])` loop of `dfs` (lines 113-117), with the
recursive visit passed as a function. -/
def dfsScan (visit : String → (String → Color) → Bool × (String → Color)) :
    List String → (String → Color) → Bool × (String → Color)
  | [], c => (false, c)
  | v :: vs, c =>
    if c v = Color.gray then (true, c)
    else if c v = Color.white then
      match visit v c with
      | (true, c2) => (true, c2)
      | (false, c2) => dfsScan visit vs c2
    else dfsScan visit vs c

/-- `dfs(u)` (lines 111-119): mark `u` gray, scan its successors, mark `u`
black.  The fuel bounds the recursion depth; `is_framework_circular`
supplies one more than the number of nodes, which is never exhausted
because every nested call is on a distinct white node. -/
def dfsVisit (g : String → List String) : Nat → String → (String → Color) →
    Bool × (String → Color)
  | 0, _, c => (true, c)
  | fuel + 1, u, c =>
    match dfsScan (dfsVisit g fuel) (g u) (setColor c u Color.gray) with
    | (true, c2) => (true, c2)
    | (false, c2) => (false, setColor c2 u Color.black)

/-- The driver loop `for n in nodes` (lines 121-124). -/
def dfsForest (g : String → List String) (fuel : Nat) :
    List String → (String → Color) → Bool
  | [], _ => false
  | n :: rest, c =>
    if c n = Color.white then
      match dfsVisit g fuel n c with
      | (true, _) => true
      | (false, c2) => dfsForest g fuel rest c2
    else dfsForest g fuel rest c

/-- `is_framework_circular` (lines 90-125). -/
def is_framework_circular (F : Framework) : Bool :=
  let nodes := graphNodes F
  dfsForest (graphNeighbors F) (nodes.length + 1) nodes (fun _ => Color.white)

/-! ### `make_non_circular` (src/app.py lines 189-226) -/

/-- The synthetic level-indexed copy `f"{s}^{i}"`. -/
def indexName (s : String) (i : Nat) : String := s ++ "^" ++ Nat.repr i

/-- The `k` (atomic-bodied) or `k - 1` (non-atomic) level-indexed copies of
one rule (lines 207-224). -/
def mncRuleCopies (F : Framework) (k : Nat) (r : Rule) : List Rule :=
  if r.2.2.all (fun p => F.assumptions.contains p) then
    (List.range' 1 k).map (fun i =>
      (r.1 ++ "_" ++ Nat.repr i,
       (if i < k then indexName r.2.1 i else r.2.1), r.2.2))
  else
    (List.range' 2 (k - 1)).map (fun i =>
      (r.1 ++ "_" ++ Nat.repr i,
       (if i < k then indexName r.2.1 i else r.2.1),
       r.2.2.map (fun p =>
         if F.assumptions.contains p then p
         else if i - 1 < k then indexName p (i - 1) else p)))

/-- `make_non_circular` (lines 189-226): level-indexed unfolding.  Atomic
rules get `k` copies, non-atomic rules `k - 1` copies with body elements
indexed one level lower. -/
def make_non_circular (F : Framework) : Framework :=
  let nonAssumptions := sortedDiff F.language F.assumptions
  let k := nonAssumptions.length
  if k = 0 then F
  else
    { F with
      language :=
        F.language ++ nonAssumptions.flatMap (fun s =>
          (List.range' 1 (k - 1)).map (fun i => indexName s i))
      rules := (sorted_rules F).flatMap (mncRuleCopies F k) }

/-! ### `make_atomic` (src/app.py lines 228-261) -/

/-- The two dict assignments `contraries[s_d] = s_nd; contraries[s_nd] = s`
performed for one non-assumption `s` (later assignments shadow older
bindings, so they are prepended in order). -/
def contraryChainStep (c : List (String × String)) (s : String) :
    List (String × String) :=
  (s ++ "_nd", s) :: (s ++ "_d", s ++ "_nd") :: c

/-- `make_atomic` (lines 228-261): add `s_d`, `s_nd` for every
non-assumption `s`, chain their contraries, and replace non-assumption
body elements `p` by `p_d`. -/
def make_atomic (F : Framework) : Framework :=
  let nonAssumptions := sortedDiff F.language F.assumptions
  let fresh := nonAssumptions.flatMap (fun s => [s ++ "_d", s ++ "_nd"])
  let newContraries := nonAssumptions.foldl contraryChainStep F.contraries
  let newRules := (sorted_rules F).map (fun r =>
    (r.1, r.2.1, r.2.2.map (fun p =>
      if F.assumptions.contains p then p else p ++ "_d")))
  { language := F.language ++ fresh
    assumptions := F.assumptions ++ fresh
    contraries := newContraries
    rules := newRules
    preferences := F.preferences }

/-! ### `parse_input` (src/app.py lines 33-88)

Python string primitives are modelled over character lists.  The only
operations that can raise in the source are the tuple unpackings of
`split(sep, 1)`, modelled in the `Except` monad. -/

/-- Python whitespace for `str.strip()`. -/
def isSpace (c : Char) : Bool :=
  c == ' ' || c == '\t' || c == '\n' || c == '\r' || c == '\x0b' || c == '\x0c'

/-- `str.strip()`. -/
def pyStrip (s : String) : String :=
  ⟨((s.data.dropWhile isSpace).reverse.dropWhile isSpace).reverse⟩

/-- `str.split(sep)` for a single-character separator. -/
def splitChar (c : Char) : List Char → List (List Char)
  | [] => [[]]
  | x :: xs =>
    if x == c then [] :: splitChar c xs
    else
      match splitChar c xs with
      | [] => [[x]]
      | h :: t => (x :: h) :: t

def pySplitChar (s : String) (c : Char) : List String :=
  (splitChar c s.data).map (fun l => ⟨l⟩)

def isPrefixCharsB : List Char → List Char → Bool
  | [], _ => true
  | _ :: _, [] => false
  | a :: ps, b :: bs => a == b && isPrefixCharsB ps bs

/-- Index of the first occurrence of `sep` as a sublist. -/
def findSub (sep : List Char) : List Char → Option Nat
  | [] => if sep.isEmpty then some 0 else none
  | c :: cs =>
    if isPrefixCharsB sep (c :: cs) then some 0
    else (findSub sep cs).map (· + 1)

/-- Python `sub in s` (substring containment). -/
def pyIn (sub s : String) : Bool := (findSub sub.data s.data).isSome

/-- Python `a, b = s.split(sep, 1)`: raises (models `ValueError`) when
`sep` does not occur. -/
def pySplit1E (s sep : String) : Except String (String × String) :=
  match findSub sep.data s.data with
  | some i => .ok (⟨s.data.take i⟩, ⟨s.data.drop (i + sep.data.length)⟩)
  | none => .error "not enough values to unpack"

/-- Python `s.startswith(p)`. -/
def pyStartsWith (s p : String) : Bool := isPrefixCharsB p.data s.data

/-- Python `s.find(c)`. -/
def pyFindChar (s : String) (c : Char) : Int :=
  match List.findIdx? (fun x => x == c) s.data with
  | some n => (n : Int)
  | none => -1

/-- Python `s[i:j]` (negative indices wrap once). -/
def pySlice (s : String) (i j : Int) : String :=
  let n : Int := s.data.length
  let i2 := if i < 0 then i + n else i
  let j2 := if j < 0 then j + n else j
  ⟨(s.data.take j2.toNat).drop i2.toNat⟩

/-- Python `s[i:]`. -/
def pyDrop (s : String) (n : Nat) : String := ⟨s.data.drop n⟩

/-- `_parse_bracket_list` (lines 15-31). -/
def parse_bracket_list (s : String) : List String :=
  let t := pyStrip s
  if t.data.isEmpty then []
  else
    let inner :=
      if pyStartsWith t "[" && pyIn "]" t then
        pySlice t (pyFindChar t '[' + 1) (pyFindChar t ']')
      else t
    ((pySplitChar inner ',').map pyStrip).filter (fun p => !p.data.isEmpty)

/-- Dict assignment `rules[rid] = (head, body)`: replaces in place or
appends. -/
def rulesInsert (rs : List Rule) (rid head : String) (body : List String) :
    List Rule :=
  if rs.any (fun r => r.1 == rid) then
    rs.map (fun r => if r.1 == rid then (rid, head, body) else r)
  else rs ++ [(rid, head, body)]

def emptyFramework : Framework :=
  { language := [], assumptions := [], contraries := [], rules := []
    preferences := [] }

/-- One declaration line of `parse_input` (lines 51-88). -/
def parseLine (fw : Framework) (line : String) : Except String Framework :=
  if pyStartsWith line "L:" then
    .ok { fw with
          language := dedupF (parse_bracket_list (pyStrip (pyDrop line 2))) }
  else if pyStartsWith line "A:" then
    .ok { fw with
          assumptions := dedupF (parse_bracket_list (pyStrip (pyDrop line 2))) }
  else if pyStartsWith line "C(" && pyIn ":" line then do
    let (left, right) ← pySplit1E line ":"
    let inside := pyStrip (pySlice left (pyFindChar left '(' + 1) (pyFindChar left ')'))
    let contrary := pyStrip right
    .ok (if inside.data.isEmpty then fw
         else { fw with contraries := (inside, contrary) :: fw.contraries })
  else if pyStartsWith line "[" && pyIn "]:" line then do
    let (ridPart, rest) ← pySplit1E line "]:"
    let rid := pyStrip (pyDrop ridPart 1)
    if pyIn "<-" rest then do
      let (headPart, bodyPart) ← pySplit1E rest "<-"
      .ok { fw with
            rules := rulesInsert fw.rules rid (pyStrip headPart)
              (parse_bracket_list (pyStrip bodyPart)) }
    else
      .ok { fw with rules := rulesInsert fw.rules rid (pyStrip rest) [] }
  else if pyStartsWith line "PREF:" then
    let rest := pyStrip (pyDrop line 5)
    if rest.data.isEmpty then .ok fw
    else
      let parts := ((pySplitChar rest '>').map pyStrip).filter
        (fun p => !p.data.isEmpty)
      .ok { fw with preferences := fw.preferences ++ parts.zip parts.tail }
  else .ok fw

/-- `parse_input` (lines 33-88): reset, split into nonblank stripped lines,
process each in order. -/
def parse_input (text : String) : Except String Framework :=
  (((pySplitChar text '\n').map pyStrip).filter
    (fun l => !l.data.isEmpty)).foldlM parseLine emptyFramework

/-! ### Definitions supporting the claim statements and proofs -/

def digitVal (c : Char) : Nat := c.toNat - '0'.toNat

def evalDigits (cs : List Char) : Nat :=
  cs.foldl (fun acc c => 10 * acc + digitVal c) 0

/-- Arguments carry positional ids `a1, a2, ...`. -/
def idsOk (args : List Argument) : Prop :=
  ∀ i (h : i < args.length), (args.get ⟨i, h⟩).id = mkId (i + 1)

def claimsNodup (args : List Argument) : Prop :=
  (args.map (fun a => a.claim)).Nodup

/-- Scenario 1 of the spec: `L:[p,q,a,b]`, `A:[a,b]`, `C(a): b`,
`[r1]: p <- a`. -/
def exampleFw : Framework :=
  { language := ["p", "q", "a", "b"], assumptions := ["a", "b"]
    contraries := [("a", "b")], rules := [("r1", "p", ["a"])]
    preferences := [] }

/-- Scenario 1 extended with the preference `b > a`, which blocks the
normal attack and enables a reverse attack. -/
def exampleFwPref : Framework :=
  { language := ["a", "b"], assumptions := ["a", "b"]
    contraries := [("a", "b")], rules := []
    preferences := [("b", "a")] }

/-- A framework with a rule whose head is an assumption. -/
def exampleFwHead : Framework :=
  { language := ["a", "b"], assumptions := ["a", "b"]
    contraries := [], rules := [("r1", "a", ["b"])]
    preferences := [] }

/-- The condition of the claim for a normal attack `a → b` contributed by
`b`-assumption `assB`: its declared contrary is `a`'s claim and no
assumption of `a` forms a blocking pair in `preferences`. -/
def qualifiesNormal (F : Framework) (a : Argument) (assB : String) : Bool :=
  (List.lookup assB F.contraries == some a.claim) &&
  !(a.assumptions.any (fun assA => F.preferences.contains (assA, assB)))

/-- The condition of the claim for a reverse attack `b → a` contributed by
`a`-assumption `assA`: its declared contrary is `b`'s claim and some
assumption of `b` forms a pair over it in `preferences`. -/
def qualifiesReverse (F : Framework) (b : Argument) (assA : String) : Bool :=
  (List.lookup assA F.contraries == some b.claim) &&
  (b.assumptions.any (fun assB => F.preferences.contains (assB, assA)))

/-- Scenario 2 of the spec: `[r1]: p <- q`, `[r2]: q <- p` with `p`, `q`
the only non-assumptions. -/
def scenario2Fw : Framework :=
  { language := ["p", "q"], assumptions := [], contraries := []
    rules := [("r1", "p", ["q"]), ("r2", "q", ["p"])]
    preferences := [] }

/-- The counterexample framework: the rule body references `q`, which is
not in the language, so `q_d` never becomes an assumption. -/
def atomicCexFw : Framework :=
  { language := ["p"], assumptions := [], contraries := []
    rules := [("r1", "p", ["q"])], preferences := [] }

/-- A framework whose preferences are exactly the chain pairs `(x, y)` and
`(y, z)`, with an argument for `x` attacking the argument supported by
`z`; the only pair that could block this normal attack is `(x, z)`. -/
def prefChainFw (x y z : String) : Framework :=
  { language := [x, z], assumptions := [x, z], contraries := [(z, x)]
    rules := [], preferences := [(x, y), (y, z)] }

/-- The counterexample: the language already contains the sentence `p^1`,
which collides with the synthetic level-1 copy of `p` produced by the
unfolding, so the rule copy `r2_2 : p^1 <- p^1` is a self-loop. -/
def circularCexFw : Framework :=
  { language := ["p", "p^1"], assumptions := [], contraries := []
    rules := [("r1", "p", ["p^1"]), ("r2", "p^1", ["p"])]
    preferences := [] }

def levelOf (S : List String) (k : Nat) (x : String) : Nat :=
  match (List.range' 1 (k - 1)).find?
      (fun i => S.any (fun s => x == indexName s i)) with
  | some i => i
  | none => k

/-- The number of rule heads that still lack an argument. -/
def headsOpen (rs : List Rule) (args : List Argument) : Nat :=
  List.countP (fun r => (findByClaim args r.2.1).isNone) rs

/-! ## Library lemmas -/

theorem mem_dedupF {l : List String} {a : String} : a ∈ dedupF l ↔ a ∈ l := by
  induction l with
  | nil => simp [dedupF]
  | cons x xs ih =>
    simp only [dedupF, List.mem_cons, List.mem_filter, ih]
    constructor
    · rintro (rfl | ⟨h, _⟩)
      · exact .inl rfl
      · exact .inr h
    · rintro (rfl | h)
      · exact .inl rfl
      · by_cases hx : a = x
        · exact .inl hx
        · exact .inr ⟨h, by simpa using hx⟩

theorem nodup_dedupF (l : List String) : (dedupF l).Nodup := by
  induction l with
  | nil => simp [dedupF]
  | cons x xs ih =>
    simp only [dedupF, List.nodup_cons]
    refine ⟨fun hx => ?_, ih.filter _⟩
    have := (List.mem_filter.mp hx).2
    simp at this

theorem sortStrs_perm (l : List String) : (sortStrs l).Perm l :=
  List.perm_insertionSort _ l

theorem mem_sortStrs {l : List String} {a : String} :
    a ∈ sortStrs l ↔ a ∈ l :=
  (sortStrs_perm l).mem_iff

theorem nodup_sortStrs {l : List String} (h : l.Nodup) :
    (sortStrs l).Nodup :=
  ((sortStrs_perm l).nodup_iff).mpr h

/-! ## Injectivity of `Nat.repr`, hence of argument ids -/

theorem digitVal_digitChar : ∀ d : Nat, d < 10 → digitVal (Nat.digitChar d) = d := by
  decide

theorem toDigitsCore_append (fuel : Nat) :
    ∀ (n : Nat) (ds : List Char),
      Nat.toDigitsCore 10 fuel n ds = Nat.toDigitsCore 10 fuel n [] ++ ds := by
  induction fuel with
  | zero => intro n ds; simp [Nat.toDigitsCore]
  | succ fuel ih =>
    intro n ds
    simp only [Nat.toDigitsCore]
    by_cases h : n / 10 = 0
    · simp [h]
    · simp only [h, if_false]
      rw [ih (n / 10) (Nat.digitChar (n % 10) :: ds),
          ih (n / 10) [Nat.digitChar (n % 10)]]
      simp

theorem evalDigits_toDigitsCore (fuel : Nat) :
    ∀ n : Nat, n < fuel → evalDigits (Nat.toDigitsCore 10 fuel n []) = n := by
  induction fuel with
  | zero => intro n h; omega
  | succ fuel ih =>
    intro n h
    simp only [Nat.toDigitsCore]
    by_cases h0 : n / 10 = 0
    · simp only [h0, if_true]
      have hm : n % 10 < 10 := Nat.mod_lt _ (by omega)
      simp only [evalDigits, List.foldl]
      rw [digitVal_digitChar _ hm]
      omega
    · simp only [h0, if_false]
      rw [toDigitsCore_append]
      have hdiv : n / 10 < fuel := by
        have h1 : n / 10 < n := Nat.div_lt_self (by omega) (by omega)
        omega
      have hm : n % 10 < 10 := Nat.mod_lt _ (by omega)
      simp only [evalDigits, List.foldl_append]
      have := ih (n / 10) hdiv
      simp only [evalDigits] at this
      rw [this]
      simp only [List.foldl]
      rw [digitVal_digitChar _ hm]
      omega

theorem nat_repr_inj {m n : Nat} (h : Nat.repr m = Nat.repr n) : m = n := by
  have hd : Nat.toDigitsCore 10 (m + 1) m [] = Nat.toDigitsCore 10 (n + 1) n [] := by
    have : (Nat.toDigits 10 m).asString = (Nat.toDigits 10 n).asString := h
    exact congrArg String.data this
  have h1 := evalDigits_toDigitsCore (m + 1) m (by omega)
  have h2 := evalDigits_toDigitsCore (n + 1) n (by omega)
  rw [hd] at h1
  omega

theorem mkId_inj {m n : Nat} (h : mkId m = mkId n) : m = n := by
  apply nat_repr_inj
  have h2 : ("a" ++ Nat.repr m).data = ("a" ++ Nat.repr n).data := congrArg _ h
  simp only [String.data_append] at h2
  exact String.ext (by simpa using h2)

/-! ## Invariants of the argument fixed point -/

theorem findByClaim_eq_none {args : List Argument} {c : String} :
    findByClaim args c = none ↔ ∀ a ∈ args, a.claim ≠ c := by
  simp [findByClaim, List.find?_eq_none]

theorem findByClaim_isSome {args : List Argument} {c : String}
    (a : Argument) (ha : a ∈ args) (hc : a.claim = c) :
    (findByClaim args c).isSome := by
  cases h : findByClaim args c with
  | some _ => simp
  | none => exact absurd hc (findByClaim_eq_none.mp h a ha)

/-- Case analysis for one rule step: either nothing happens, or a fresh
argument claiming the rule head is appended. -/
theorem stepRule_cases (st : List Argument × Bool) (r : Rule) :
    stepRule st r = st ∨
      (findByClaim st.1 r.2.1 = none ∧
        ∃ a : Argument, a.claim = r.2.1 ∧ a.id = mkId (st.1.length + 1) ∧
          stepRule st r = (st.1 ++ [a], true)) := by
  unfold stepRule
  cases h : collectBodyArgs st.1 r.2.2 with
  | none => exact .inl rfl
  | some bodyArgs =>
    by_cases hf : (findByClaim st.1 r.2.1).isSome
    · left; simp [hf]
    · right
      refine ⟨Option.not_isSome_iff_eq_none.mp hf,
        ⟨mkId (st.1.length + 1), r.2.1,
         bodyArgs.flatMap (fun ba => ba.assumptions),
         bodyArgs.flatMap (fun ba => ba.rules) ++ [r.1]⟩, rfl, rfl, ?_⟩
      simp [hf]

/-- A generic preservation principle for invariants of the argument list
through a pass and through the whole loop. -/
theorem foldl_stepRule_inv (P : List Argument → Prop)
    (hstep : ∀ st r, P st.1 → P (stepRule st r).1) :
    ∀ (rs : List Rule) (st : List Argument × Bool),
      P st.1 → P (rs.foldl stepRule st).1 := by
  intro rs
  induction rs with
  | nil => intro st h; exact h
  | cons r rs ih => intro st h; exact ih _ (hstep st r h)

theorem onePass_inv (P : List Argument → Prop)
    (hstep : ∀ st r, P st.1 → P (stepRule st r).1)
    (rs : List Rule) (args : List Argument) (h : P args) :
    P (onePass rs args).1 :=
  foldl_stepRule_inv P hstep rs (args, false) h

theorem deriveLoop_inv (P : List Argument → Prop)
    (hstep : ∀ st r, P st.1 → P (stepRule st r).1) (rs : List Rule) :
    ∀ (fuel : Nat) (args : List Argument), P args → P (deriveLoop rs fuel args) := by
  intro fuel
  induction fuel with
  | zero => intro args h; exact h
  | succ fuel ih =>
    intro args h
    simp only [deriveLoop]
    have hp : P (onePass rs args).1 := onePass_inv P hstep rs args h
    cases hop : onePass rs args with
    | mk args2 changed =>
      rw [hop] at hp
      cases changed with
      | true => exact ih args2 hp
      | false => exact hp

theorem argumentsRaw_inv (P : List Argument → Prop)
    (hstep : ∀ st r, P st.1 → P (stepRule st r).1) (F : Framework)
    (hbase : P (baseArgsAux 0 (sortStrs (dedupF F.assumptions)))) :
    P (argumentsRaw F) :=
  deriveLoop_inv P hstep (sorted_rules F) (F.rules.length + 1) _ hbase

theorem baseArgsAux_get :
    ∀ (l : List String) (n i : Nat) (h : i < (baseArgsAux n l).length),
      ((baseArgsAux n l).get ⟨i, h⟩).id = mkId (n + i + 1) := by
  intro l
  induction l with
  | nil => intro n i h; simp [baseArgsAux] at h
  | cons s rest ih =>
    intro n i h
    cases i with
    | zero => rfl
    | succ j =>
      have := ih (n + 1) j (by simpa [baseArgsAux, Nat.succ_lt_succ_iff] using h)
      simpa [baseArgsAux, Nat.add_assoc, Nat.add_comm, Nat.add_left_comm] using this

theorem baseArgsAux_claims :
    ∀ (l : List String) (n : Nat),
      (baseArgsAux n l).map (fun a => a.claim) = l := by
  intro l
  induction l with
  | nil => intro n; rfl
  | cons s rest ih => intro n; simp [baseArgsAux, ih]

theorem baseArgsAux_shape :
    ∀ (l : List String) (n : Nat) (a : Argument), a ∈ baseArgsAux n l →
      a.assumptions = [a.claim] ∧ a.rules = [] := by
  intro l
  induction l with
  | nil => intro n a ha; simp [baseArgsAux] at ha
  | cons s rest ih =>
    intro n a ha
    rcases (List.mem_cons).mp ha with rfl | h
    · exact ⟨rfl, rfl⟩
    · exact ih (n + 1) a h

theorem baseArgsAux_covers :
    ∀ (l : List String) (n : Nat) (s : String), s ∈ l →
      ∃ a ∈ baseArgsAux n l, a.claim = s := by
  intro l
  induction l with
  | nil => intro n s hs; simp at hs
  | cons x rest ih =>
    intro n s hs
    rcases (List.mem_cons).mp hs with rfl | h
    · exact ⟨_, List.mem_cons_self _ _, rfl⟩
    · obtain ⟨a, ha, hc⟩ := ih (n + 1) s h
      exact ⟨a, List.mem_cons_of_mem _ ha, hc⟩

theorem idsOk_step (st : List Argument × Bool) (r : Rule) (h : idsOk st.1) :
    idsOk (stepRule st r).1 := by
  rcases stepRule_cases st r with heq | ⟨-, a, -, hid, heq⟩
  · rw [heq]; exact h
  · rw [heq]
    intro i hi
    simp only [List.length_append, List.length_singleton] at hi
    by_cases hlt : i < st.1.length
    · have := h i hlt
      simp only [List.get_eq_getElem] at this ⊢
      rwa [List.getElem_append_left hlt]
    · have hieq : i = st.1.length := by omega
      subst hieq
      simp only [List.get_eq_getElem]
      simp [hid]

theorem argumentsRaw_idsOk (F : Framework) : idsOk (argumentsRaw F) := by
  apply argumentsRaw_inv idsOk idsOk_step
  intro i h
  simpa using baseArgsAux_get _ 0 i h

/-- The final per-argument sort keeps ids and claims. -/
theorem get_arguments_id_claim (F : Framework) (i : Nat)
    (h : i < (get_arguments F).length) :
    ∃ h2 : i < (argumentsRaw F).length,
      ((get_arguments F).get ⟨i, h⟩).id = ((argumentsRaw F).get ⟨i, h2⟩).id ∧
      ((get_arguments F).get ⟨i, h⟩).claim = ((argumentsRaw F).get ⟨i, h2⟩).claim := by
  have h2 : i < (argumentsRaw F).length := by
    simpa [get_arguments] using h
  refine ⟨h2, ?_, ?_⟩ <;> simp [get_arguments]

theorem get_arguments_ids (F : Framework) (i : Nat)
    (h : i < (get_arguments F).length) :
    ((get_arguments F).get ⟨i, h⟩).id = mkId (i + 1) := by
  obtain ⟨h2, hid, -⟩ := get_arguments_id_claim F i h
  rw [hid]
  exact argumentsRaw_idsOk F i h2

/-- Distinct positions carry distinct ids, so the id map is injective on the
produced argument list. -/
theorem get_arguments_ids_nodup (F : Framework) :
    ((get_arguments F).map (fun a => a.id)).Nodup := by
  rw [List.nodup_iff_injective_get]
  intro i j hij
  apply Fin.ext
  have hi : (i : Nat) < (get_arguments F).length := by
    have := i.isLt; simpa using this
  have hj : (j : Nat) < (get_arguments F).length := by
    have := j.isLt; simpa using this
  have e1 : ((get_arguments F).map (fun a => a.id)).get i = mkId ((i : Nat) + 1) := by
    simp only [List.get_eq_getElem, List.getElem_map]
    have := get_arguments_ids F (i : Nat) hi
    simpa [List.get_eq_getElem] using this
  have e2 : ((get_arguments F).map (fun a => a.id)).get j = mkId ((j : Nat) + 1) := by
    simp only [List.get_eq_getElem, List.getElem_map]
    have := get_arguments_ids F (j : Nat) hj
    simpa [List.get_eq_getElem] using this
  have heq : mkId ((i : Nat) + 1) = mkId ((j : Nat) + 1) := by
    rw [← e1, ← e2, hij]
  have := mkId_inj heq
  omega

theorem get_arguments_nodup (F : Framework) : (get_arguments F).Nodup :=
  (get_arguments_ids_nodup F).of_map

theorem get_arguments_id_injOn (F : Framework) {a b : Argument}
    (ha : a ∈ get_arguments F) (hb : b ∈ get_arguments F)
    (hid : a.id = b.id) : a = b :=
  List.inj_on_of_nodup_map (get_arguments_ids_nodup F) ha hb hid

/-! ## Claim C3: one argument per claim -/

theorem claimsNodup_step (st : List Argument × Bool) (r : Rule)
    (h : claimsNodup st.1) : claimsNodup (stepRule st r).1 := by
  rcases stepRule_cases st r with heq | ⟨hnone, a, hclaim, -, heq⟩
  · rw [heq]; exact h
  · rw [heq]
    unfold claimsNodup at h ⊢
    rw [List.map_append]
    simp only [List.map_singleton]
    rw [List.nodup_append]
    refine ⟨h, List.nodup_singleton _, ?_⟩
    intro c hc hc1
    simp only [List.mem_singleton] at hc1
    subst hc1
    obtain ⟨b, hb, hbc⟩ := List.mem_map.mp hc
    exact findByClaim_eq_none.mp hnone b hb (hbc.trans hclaim)

theorem argumentsRaw_claimsNodup (F : Framework) : claimsNodup (argumentsRaw F) := by
  apply argumentsRaw_inv claimsNodup claimsNodup_step
  unfold claimsNodup
  rw [baseArgsAux_claims]
  exact nodup_sortStrs (nodup_dedupF _)

/-- C3.  The sequence returned by `get_arguments` never contains two
arguments with the same claim: a derivation reaching an already-claimed
sentence is discarded (first claim wins), so the claim list is
duplicate-free for every framework. -/
theorem c3_argument_claims_unique (F : Framework) :
    ((get_arguments F).map (fun a => a.claim)).Nodup := by
  have h := argumentsRaw_claimsNodup F
  unfold claimsNodup at h
  have : (get_arguments F).map (fun a => a.claim)
      = (argumentsRaw F).map (fun a => a.claim) := by
    simp [get_arguments]
  rwa [this]

/-! ## Claim C9: deterministic positional argument ids -/

/-- C9.  `get_arguments` (and hence `get_attacks`) is a pure function of the
framework value: the id of the argument at position `i` is always
`f'a{i+1}'`, determined by the position alone, with no counter state
leaking across invocations. -/
theorem c9_argument_ids_positional (F : Framework) (i : Nat)
    (h : i < (get_arguments F).length) :
    ((get_arguments F).get ⟨i, h⟩).id = mkId (i + 1) :=
  get_arguments_ids F i h

/-! ## Claim C10: assumptions keep their trivial argument -/

theorem c10_invariant (F : Framework) :
    (∀ a ∈ argumentsRaw F, a.claim ∈ F.assumptions →
        a.assumptions = [a.claim] ∧ a.rules = []) ∧
    (∀ s ∈ F.assumptions, ∃ a ∈ argumentsRaw F, a.claim = s) := by
  apply argumentsRaw_inv
    (fun args =>
      (∀ a ∈ args, a.claim ∈ F.assumptions →
          a.assumptions = [a.claim] ∧ a.rules = []) ∧
      (∀ s ∈ F.assumptions, ∃ a ∈ args, a.claim = s))
  · intro st r h
    rcases stepRule_cases st r with heq | ⟨hnone, a, hclaim, -, heq⟩
    · rw [heq]; exact h
    · rw [heq]
      constructor
      · intro b hb hbclaim
        rcases List.mem_append.mp hb with hb1 | hb1
        · exact h.1 b hb1 hbclaim
        · simp only [List.mem_singleton] at hb1
          subst hb1
          obtain ⟨w, hw, hwc⟩ := h.2 b.claim hbclaim
          exact absurd (hwc.trans hclaim) (findByClaim_eq_none.mp hnone w hw)
      · intro s hs
        obtain ⟨w, hw, hwc⟩ := h.2 s hs
        exact ⟨w, List.mem_append_left _ hw, hwc⟩
  · constructor
    · intro a ha _
      exact baseArgsAux_shape _ 0 a ha
    · intro s hs
      exact baseArgsAux_covers _ 0 s
        (mem_sortStrs.mpr (mem_dedupF.mpr hs))

/-- C10.  Every assumption `s` keeps its trivial argument: the (unique)
argument claiming `s` has support `{s}` and empty derivation, even when a
rule has head `s` — rule-derived duplicates are discarded, never replacing
the base argument. -/
theorem c10_assumption_argument_trivial (F : Framework) (s : String)
    (hs : s ∈ F.assumptions) :
    (∃ a ∈ get_arguments F, a.claim = s) ∧
    (∀ a ∈ get_arguments F, a.claim = s →
      a.assumptions = [s] ∧ a.rules = []) := by
  obtain ⟨hshape, hcover⟩ := c10_invariant F
  constructor
  · obtain ⟨a, ha, hc⟩ := hcover s hs
    refine ⟨{ a with assumptions := sortStrs (dedupF a.assumptions)
                     rules := sortStrs (dedupF a.rules) }, ?_, hc⟩
    simp only [get_arguments, List.mem_map]
    exact ⟨a, ha, rfl⟩
  · intro a2 ha2 hc2
    simp only [get_arguments, List.mem_map] at ha2
    obtain ⟨a, ha, rfl⟩ := ha2
    have hc : a.claim = s := hc2
    obtain ⟨h1, h2⟩ := hshape a ha (hc ▸ hs)
    constructor
    · show sortStrs (dedupF a.assumptions) = [s]
      rw [h1, hc]
      rfl
    · show sortStrs (dedupF a.rules) = [s].tail
      rw [h2]
      rfl

/-! ## Example frameworks used by the witnesses -/

theorem c9_witness :
    ((get_arguments exampleFw).get ⟨2, by decide⟩).id = mkId 3 :=
  c9_argument_ids_positional exampleFw 2 (by decide)

theorem c10_witness :
    (∃ a ∈ get_arguments exampleFwHead, a.claim = "a") ∧
    (∀ a ∈ get_arguments exampleFwHead, a.claim = "a" →
      a.assumptions = ["a"] ∧ a.rules = []) :=
  c10_assumption_argument_trivial exampleFwHead "a" (by decide)

/-! ## Claims C1 and C2: the attack relation, record by record -/

theorem mem_normalRecords {F : Framework} {a b : Argument} {at2 : Attack}
    (hx : at2 ∈ normalRecords F a b) :
    at2.attacker = a.id ∧ at2.attacked = b.id ∧ at2.type = "normal" := by
  obtain ⟨assB, -, hf⟩ := List.mem_filterMap.mp hx
  cases hlook : List.lookup assB F.contraries with
  | none => rw [hlook] at hf; simp at hf
  | some contr =>
    rw [hlook] at hf
    dsimp only at hf
    by_cases hc : contr = a.claim
    · rw [if_pos hc] at hf
      by_cases hblock :
          (a.assumptions.any (fun assA => F.preferences.contains (assA, assB))) = true
      · rw [if_pos hblock] at hf
        simp at hf
      · rw [if_neg hblock] at hf
        have := Option.some.inj hf
        subst this
        exact ⟨rfl, rfl, rfl⟩
    · rw [if_neg hc] at hf
      simp at hf

theorem mem_reverseRecords {F : Framework} {a b : Argument} {at2 : Attack}
    (hx : at2 ∈ reverseRecords F a b) :
    at2.attacker = b.id ∧ at2.attacked = a.id ∧ at2.type = "reverse" := by
  obtain ⟨assA, -, hf⟩ := List.mem_filterMap.mp hx
  cases hlook : List.lookup assA F.contraries with
  | none => rw [hlook] at hf; simp at hf
  | some contr =>
    rw [hlook] at hf
    dsimp only at hf
    by_cases hc : contr = b.claim
    · rw [if_pos hc] at hf
      by_cases hen :
          (b.assumptions.any (fun assB => F.preferences.contains (assB, assA))) = true
      · rw [if_pos hen] at hf
        have := Option.some.inj hf
        subst this
        exact ⟨rfl, rfl, rfl⟩
      · rw [if_neg hen] at hf
        simp at hf
    · rw [if_neg hc] at hf
      simp at hf

theorem count_normalRecords_self (F : Framework) (a b : Argument) :
    List.count { attacker := a.id, attacked := b.id, type := "normal" }
        (normalRecords F a b)
      = List.countP (qualifiesNormal F a) b.assumptions := by
  rw [normalRecords, List.count_filterMap]
  apply List.countP_congr
  intro assB _
  unfold qualifiesNormal
  cases hlook : List.lookup assB F.contraries with
  | none => simp
  | some contr =>
    by_cases hc : contr = a.claim
    · by_cases hblock :
          a.assumptions.any (fun assA => F.preferences.contains (assA, assB))
      · simp [hc, hblock]
      · simp [hc, hblock]
    · simp [hc, beq_iff_eq]

theorem count_reverseRecords_self (F : Framework) (a b : Argument) :
    List.count { attacker := b.id, attacked := a.id, type := "reverse" }
        (reverseRecords F a b)
      = List.countP (qualifiesReverse F b) a.assumptions := by
  rw [reverseRecords, List.count_filterMap]
  apply List.countP_congr
  intro assA _
  unfold qualifiesReverse
  cases hlook : List.lookup assA F.contraries with
  | none => simp
  | some contr =>
    by_cases hc : contr = b.claim
    · by_cases hen :
          b.assumptions.any (fun assB => F.preferences.contains (assB, assA))
      · simp [hc, hen]
      · simp [hc, hen]
    · simp [hc, beq_iff_eq]

theorem count_normal_zero_of_ne (F : Framework) {a b x y : Argument}
    (h : ¬(x.id = a.id ∧ y.id = b.id)) :
    List.count { attacker := a.id, attacked := b.id, type := "normal" }
        (normalRecords F x y ++ reverseRecords F x y) = 0 := by
  rw [List.count_append]
  have h1 : List.count { attacker := a.id, attacked := b.id, type := "normal" }
      (normalRecords F x y) = 0 := by
    rw [List.count_eq_zero]
    intro hmem
    obtain ⟨h1, h2, -⟩ := mem_normalRecords (a := x) (b := y) hmem
    exact h ⟨h1.symm, h2.symm⟩
  have h2 : List.count { attacker := a.id, attacked := b.id, type := "normal" }
      (reverseRecords F x y) = 0 := by
    rw [List.count_eq_zero]
    intro hmem
    obtain ⟨-, -, ht⟩ := mem_reverseRecords (a := x) (b := y) hmem
    simp at ht
  omega

theorem count_reverse_zero_of_ne (F : Framework) {a b x y : Argument}
    (h : ¬(x.id = a.id ∧ y.id = b.id)) :
    List.count { attacker := b.id, attacked := a.id, type := "reverse" }
        (normalRecords F x y ++ reverseRecords F x y) = 0 := by
  rw [List.count_append]
  have h1 : List.count { attacker := b.id, attacked := a.id, type := "reverse" }
      (normalRecords F x y) = 0 := by
    rw [List.count_eq_zero]
    intro hmem
    obtain ⟨-, -, ht⟩ := mem_normalRecords (a := x) (b := y) hmem
    simp at ht
  have h2 : List.count { attacker := b.id, attacked := a.id, type := "reverse" }
      (reverseRecords F x y) = 0 := by
    rw [List.count_eq_zero]
    intro hmem
    obtain ⟨h1, h2, -⟩ := mem_reverseRecords (a := x) (b := y) hmem
    exact h ⟨h2.symm, h1.symm⟩
  omega

theorem sum_map_single {α : Type} [DecidableEq α] {l : List α}
    (hnd : l.Nodup) {a : α} (ha : a ∈ l) (f : α → Nat)
    (h0 : ∀ y ∈ l, y ≠ a → f y = 0) : (l.map f).sum = f a := by
  induction l with
  | nil => simp at ha
  | cons x xs ih =>
    rcases List.mem_cons.mp ha with rfl | hmem
    · have hnx : a ∉ xs := (List.nodup_cons.mp hnd).1
      have hz : (xs.map f).sum = 0 :=
        List.sum_eq_zero (by
          intro v hv
          obtain ⟨y, hy, rfl⟩ := List.mem_map.mp hv
          exact h0 y (List.mem_cons_of_mem _ hy) (fun hya => hnx (hya ▸ hy)))
      simp [hz]
    · have hx0 : f x = 0 := h0 x (List.mem_cons_self _ _)
        (by rintro rfl; exact (List.nodup_cons.mp hnd).1 hmem)
      have hsum := ih (List.nodup_cons.mp hnd).2 hmem
        (fun y hy hne => h0 y (List.mem_cons_of_mem _ hy) hne)
      simp [hx0, hsum]

/-- C1.  For arguments `a`, `b` of the framework, the number of normal
attack records `a -> b` equals the number of assumptions in `b`'s support
whose declared contrary is `a`'s claim and for which no assumption of `a`
forms a pair in `preferences`: each qualifying assumption produces its own
record (no deduplication), and a blocking preference pair suppresses
exactly the records of the blocked assumption. -/
theorem c1_normal_attack_records (F : Framework) (a b : Argument)
    (ha : a ∈ get_arguments F) (hb : b ∈ get_arguments F) :
    List.count { attacker := a.id, attacked := b.id, type := "normal" }
        (get_attacks F)
      = List.countP (qualifiesNormal F a) b.assumptions := by
  have hflat : get_attacks F
      = (get_arguments F).flatMap (fun x => (get_arguments F).flatMap
          (fun y => normalRecords F x y ++ reverseRecords F x y)) := rfl
  rw [hflat, List.count_flatMap]
  rw [sum_map_single (get_arguments_nodup F) ha _ (by
    intro y hy hne
    simp only [Function.comp_apply]
    rw [List.count_flatMap]
    apply List.sum_eq_zero
    intro v hv
    obtain ⟨b2, -, rfl⟩ := List.mem_map.mp hv
    simp only [Function.comp_apply]
    exact count_normal_zero_of_ne F (fun hids =>
      hne (get_arguments_id_injOn F hy ha hids.1)))]
  simp only [Function.comp_apply]
  rw [List.count_flatMap]
  rw [sum_map_single (get_arguments_nodup F) hb _ (by
    intro y hy hne
    simp only [Function.comp_apply]
    exact count_normal_zero_of_ne F (fun hids =>
      hne (get_arguments_id_injOn F hy hb hids.2)))]
  simp only [Function.comp_apply]
  rw [List.count_append, count_normalRecords_self]
  have hz : List.count { attacker := a.id, attacked := b.id, type := "normal" }
      (reverseRecords F a b) = 0 := by
    rw [List.count_eq_zero]
    intro hmem
    obtain ⟨-, -, ht⟩ := mem_reverseRecords (a := a) (b := b) hmem
    simp at ht
  omega

/-- C2.  For arguments `a`, `b` of the framework, the number of reverse
attack records `b -> a` equals the number of assumptions in `a`'s support
whose declared contrary is `b`'s claim and for which some assumption of
`b` forms a pair in `preferences`: the record is produced exactly when
such a preference pair exists. -/
theorem c2_reverse_attack_records (F : Framework) (a b : Argument)
    (ha : a ∈ get_arguments F) (hb : b ∈ get_arguments F) :
    List.count { attacker := b.id, attacked := a.id, type := "reverse" }
        (get_attacks F)
      = List.countP (qualifiesReverse F b) a.assumptions := by
  have hflat : get_attacks F
      = (get_arguments F).flatMap (fun x => (get_arguments F).flatMap
          (fun y => normalRecords F x y ++ reverseRecords F x y)) := rfl
  rw [hflat, List.count_flatMap]
  rw [sum_map_single (get_arguments_nodup F) ha _ (by
    intro y hy hne
    simp only [Function.comp_apply]
    rw [List.count_flatMap]
    apply List.sum_eq_zero
    intro v hv
    obtain ⟨b2, -, rfl⟩ := List.mem_map.mp hv
    simp only [Function.comp_apply]
    exact count_reverse_zero_of_ne F (fun hids =>
      hne (get_arguments_id_injOn F hy ha hids.1)))]
  simp only [Function.comp_apply]
  rw [List.count_flatMap]
  rw [sum_map_single (get_arguments_nodup F) hb _ (by
    intro y hy hne
    simp only [Function.comp_apply]
    exact count_reverse_zero_of_ne F (fun hids =>
      hne (get_arguments_id_injOn F hy hb hids.2)))]
  simp only [Function.comp_apply]
  rw [List.count_append, count_reverseRecords_self]
  have hz : List.count { attacker := b.id, attacked := a.id, type := "reverse" }
      (normalRecords F a b) = 0 := by
    rw [List.count_eq_zero]
    intro hmem
    obtain ⟨-, -, ht⟩ := mem_normalRecords (a := a) (b := b) hmem
    simp at ht
  omega

theorem c1_witness :
    (List.count { attacker := "a2", attacked := "a3", type := "normal" }
        (get_attacks exampleFw)
      = List.countP (qualifiesNormal exampleFw
          { id := "a2", claim := "b", assumptions := ["b"], rules := [] })
          ["a"]) ∧
    List.count { attacker := "a2", attacked := "a3", type := "normal" }
        (get_attacks exampleFw) = 1 :=
  ⟨c1_normal_attack_records exampleFw
    { id := "a2", claim := "b", assumptions := ["b"], rules := [] }
    { id := "a3", claim := "p", assumptions := ["a"], rules := ["r1"] }
    (by decide) (by decide), by decide⟩

theorem c2_witness :
    (List.count { attacker := "a2", attacked := "a1", type := "reverse" }
        (get_attacks exampleFwPref)
      = List.countP (qualifiesReverse exampleFwPref
          { id := "a2", claim := "b", assumptions := ["b"], rules := [] })
          ["a"]) ∧
    List.count { attacker := "a2", attacked := "a1", type := "reverse" }
        (get_attacks exampleFwPref) = 1 :=
  ⟨c2_reverse_attack_records exampleFwPref
    { id := "a1", claim := "a", assumptions := ["a"], rules := [] }
    { id := "a2", claim := "b", assumptions := ["b"], rules := [] }
    (by decide) (by decide), by decide⟩

/-! ## Claim C7: the two-rule cycle scenario -/

/-- C7.  On the two-rule cycle `p <- q`, `q <- p` (`k = 2`):
`is_framework_circular` is true; `make_non_circular` extends the language
with exactly the indexed copies `p^1` and `q^1`; and the transformed
framework derives no argument at all, in particular none claiming `p` or
`q`. -/
theorem c7_cycle_unfolding :
    is_framework_circular scenario2Fw = true ∧
    (make_non_circular scenario2Fw).language = ["p", "q", "p^1", "q^1"] ∧
    get_arguments (make_non_circular scenario2Fw) = [] ∧
    ∀ a ∈ get_arguments (make_non_circular scenario2Fw),
      a.claim ≠ "p" ∧ a.claim ≠ "q" := by
  refine ⟨by decide, by decide, by decide, ?_⟩
  intro a ha
  have h : get_arguments (make_non_circular scenario2Fw) = [] := by decide
  rw [h] at ha
  simp at ha

/-! ## Claim C5: atomisation -/

/-- C5 counterexample.  `make_atomic` does not make this framework atomic:
the body sentence `q` lies outside the language, its replacement `q_d` is
not added to the assumptions, and `is_framework_atomic` is false on the
result, contradicting the claim for frameworks whose rule bodies may
reference sentences outside the language. -/
theorem c5_counterexample :
    ("q" ∈ atomicCexFw.rules.head!.2.2 ∧ "q" ∉ atomicCexFw.language) ∧
    is_framework_atomic (make_atomic atomicCexFw) = false := by
  refine ⟨⟨by decide, by decide⟩, by decide⟩

/-! String disjointness facts for the synthetic `_d` / `_nd` names. -/

theorem append_right_cancel_str {x y c : String} (h : x ++ c = y ++ c) :
    x = y := by
  apply String.ext
  have hd := congrArg String.data h
  simp only [String.data_append] at hd
  exact List.append_cancel_right hd

theorem d_ne_nd (s t : String) : s ++ "_d" ≠ t ++ "_nd" := by
  intro h
  have hd := congrArg String.data h
  simp only [String.data_append] at hd
  have hrev := congrArg List.reverse hd
  simp only [List.reverse_append] at hrev
  simp at hrev

theorem d_ne_nd_self (s : String) : s ++ "_d" ≠ s ++ "_nd" :=
  d_ne_nd s s

theorem contains_iff {l : List String} {s : String} :
    l.contains s = true ↔ s ∈ l :=
  List.elem_iff

theorem mem_sortedDiff {l a : List String} {s : String} :
    s ∈ sortedDiff l a ↔ s ∈ l ∧ s ∉ a := by
  unfold sortedDiff
  rw [mem_sortStrs, mem_dedupF, List.mem_filter]
  simp [contains_iff]

theorem nodup_sortedDiff (l a : List String) : (sortedDiff l a).Nodup :=
  nodup_sortStrs (nodup_dedupF _)

theorem lookup_cons_ne {k a v : String} {r : List (String × String)}
    (h : k ≠ a) : List.lookup k ((a, v) :: r) = List.lookup k r := by
  have hb : (k == a) = false := beq_eq_false_iff_ne.mpr h
  simp [List.lookup, hb]

theorem lookup_cons_eq {k v : String} {r : List (String × String)} :
    List.lookup k ((k, v) :: r) = some v := by
  simp [List.lookup]

theorem lookup_foldl_chain_skip :
    ∀ (l : List String) (d : List (String × String)) (k : String),
      (∀ s ∈ l, k ≠ s ++ "_d" ∧ k ≠ s ++ "_nd") →
      List.lookup k (l.foldl contraryChainStep d) = List.lookup k d := by
  intro l
  induction l with
  | nil => intro d k _; rfl
  | cons x rest ih =>
    intro d k hk
    have hx := hk x (List.mem_cons_self _ _)
    rw [List.foldl_cons, ih _ k (fun s hs => hk s (List.mem_cons_of_mem _ hs))]
    unfold contraryChainStep
    rw [lookup_cons_ne hx.2, lookup_cons_ne hx.1]

theorem lookup_foldl_chain_hit :
    ∀ (l : List String) (d : List (String × String)) (s : String),
      s ∈ l → l.Nodup →
      List.lookup (s ++ "_d") (l.foldl contraryChainStep d) = some (s ++ "_nd") ∧
      List.lookup (s ++ "_nd") (l.foldl contraryChainStep d) = some s := by
  intro l
  induction l with
  | nil => intro d s hs _; simp at hs
  | cons x rest ih =>
    intro d s hs hnd
    rcases List.mem_cons.mp hs with rfl | hmem
    · have hout : s ∉ rest := (List.nodup_cons.mp hnd).1
      rw [List.foldl_cons]
      constructor
      · rw [lookup_foldl_chain_skip rest _ (s ++ "_d") (by
          intro u hu
          refine ⟨fun h => hout ?_, d_ne_nd s u⟩
          have : s = u := append_right_cancel_str h
          exact this ▸ hu)]
        unfold contraryChainStep
        rw [lookup_cons_ne (d_ne_nd_self s), lookup_cons_eq]
      · rw [lookup_foldl_chain_skip rest _ (s ++ "_nd") (by
          intro u hu
          refine ⟨fun h => d_ne_nd u s h.symm, fun h => hout ?_⟩
          have : s = u := append_right_cancel_str h
          exact this ▸ hu)]
        unfold contraryChainStep
        rw [lookup_cons_eq]
    · rw [List.foldl_cons]
      exact ih _ s hmem (List.nodup_cons.mp hnd).2

/-- C5 (amended).  For every framework whose rule bodies reference only
sentences of the language or assumptions (each non-assumption body element
belongs to `language`), `make_atomic` produces a framework whose rule
bodies consist solely of assumptions (`is_framework_atomic` holds), and
for every non-assumption `s` of the original language the result maps
`s_d` to `s_nd` and `s_nd` to `s` in `contraries`.  The restriction to
in-language bodies is forced by the counterexample: for out-of-language
body sentences the fresh `p_d` is never added to the assumptions. -/
theorem c5_amended_atomic (F : Framework)
    (hbody : ∀ r ∈ F.rules, ∀ p ∈ r.2.2, p ∉ F.assumptions → p ∈ F.language) :
    is_framework_atomic (make_atomic F) = true ∧
    ∀ s ∈ F.language, s ∉ F.assumptions →
      List.lookup (s ++ "_d") (make_atomic F).contraries = some (s ++ "_nd") ∧
      List.lookup (s ++ "_nd") (make_atomic F).contraries = some s := by
  have hassum : (make_atomic F).assumptions
      = F.assumptions ++ (sortedDiff F.language F.assumptions).flatMap
          (fun s => [s ++ "_d", s ++ "_nd"]) := rfl
  have hrules : (make_atomic F).rules
      = (sorted_rules F).map (fun r =>
          (r.1, r.2.1, r.2.2.map (fun p =>
            if F.assumptions.contains p then p else p ++ "_d"))) := rfl
  have hcontr : (make_atomic F).contraries
      = (sortedDiff F.language F.assumptions).foldl contraryChainStep
          F.contraries := rfl
  constructor
  · unfold is_framework_atomic
    rw [hrules, List.all_eq_true]
    intro r2 hr2
    obtain ⟨r, hr, rfl⟩ := List.mem_map.mp hr2
    rw [List.all_eq_true]
    intro p2 hp2
    obtain ⟨p, hp, rfl⟩ := List.mem_map.mp hp2
    have hrF : r ∈ F.rules :=
      (List.perm_insertionSort _ F.rules).mem_iff.mp hr
    by_cases hpa : F.assumptions.contains p = true
    · rw [if_pos hpa, hassum]
      exact contains_iff.mpr (List.mem_append_left _ (contains_iff.mp hpa))
    · rw [if_neg hpa, hassum]
      have hpnot : p ∉ F.assumptions := fun hm => hpa (contains_iff.mpr hm)
      have hplang : p ∈ F.language := hbody r hrF p hp hpnot
      apply contains_iff.mpr
      apply List.mem_append_right
      apply List.mem_flatMap.mpr
      exact ⟨p, mem_sortedDiff.mpr ⟨hplang, hpnot⟩, by simp⟩
  · intro s hsl hsa
    rw [hcontr]
    exact lookup_foldl_chain_hit _ F.contraries s
      (mem_sortedDiff.mpr ⟨hsl, hsa⟩) (nodup_sortedDiff _ _)

theorem c5_witness :
    is_framework_atomic (make_atomic exampleFw) = true ∧
    ∀ s ∈ exampleFw.language, s ∉ exampleFw.assumptions →
      List.lookup (s ++ "_d") (make_atomic exampleFw).contraries
        = some (s ++ "_nd") ∧
      List.lookup (s ++ "_nd") (make_atomic exampleFw).contraries = some s :=
  c5_amended_atomic exampleFw (by decide)

/-! ## Claim C6: preferences are used by direct pair membership only -/

/-- A rule-free framework whose sorted assumption set is `[u, v]` derives
exactly the two trivial arguments. -/
theorem get_arguments_two (Fw : Framework) (u v : String)
    (hr : Fw.rules = []) (ha : sortStrs (dedupF Fw.assumptions) = [u, v]) :
    get_arguments Fw =
      [{ id := mkId 1, claim := u, assumptions := [u], rules := [] },
       { id := mkId 2, claim := v, assumptions := [v], rules := [] }] := by
  unfold get_arguments argumentsRaw sorted_rules
  rw [ha, hr]
  rfl

/-- A normal attack record is produced whenever the attacked argument has a
supporting assumption whose declared contrary is the attacker's claim and
the blocking scan over `preferences` comes up empty. -/
theorem normal_attack_mem (F : Framework) (argA argB : Argument) (w : String)
    (hargA : argA ∈ get_arguments F) (hargB : argB ∈ get_arguments F)
    (hsup : argB.assumptions = [w])
    (hlook : List.lookup w F.contraries = some argA.claim)
    (hblock : (argA.assumptions.any
      (fun assA => F.preferences.contains (assA, w))) = false) :
    { attacker := argA.id, attacked := argB.id, type := "normal" }
      ∈ get_attacks F := by
  show _ ∈ (get_arguments F).flatMap
    (fun a => (get_arguments F).flatMap (fun b =>
      normalRecords F a b ++ reverseRecords F a b))
  apply List.mem_flatMap.mpr
  refine ⟨argA, hargA, ?_⟩
  apply List.mem_flatMap.mpr
  refine ⟨argB, hargB, ?_⟩
  apply List.mem_append_left
  apply List.mem_filterMap.mpr
  refine ⟨w, by rw [hsup]; exact List.mem_singleton_self _, ?_⟩
  rw [hlook]
  dsimp only
  rw [if_pos rfl, if_neg (fun h => Bool.false_ne_true (hblock ▸ h))]

/-- C6.  Preference lookups use direct pair membership only, with no
transitive closure: when the preferences are exactly `(x, y)` and
`(y, z)`, the pair `(x, z)` is absent, so the normal attack from the
argument claiming `x` onto the argument supported by `z` — whose only
potential blocking pair would be `(x, z)` — is recorded rather than
rejected. -/
theorem c6_direct_pair_only (x y z : String)
    (hxy : x ≠ y) (hyz : y ≠ z) (hxz : x ≠ z) :
    ((x, z) ∉ (prefChainFw x y z).preferences) ∧
    ∃ a b : Argument, a ∈ get_arguments (prefChainFw x y z) ∧
      b ∈ get_arguments (prefChainFw x y z) ∧ a.claim = x ∧ b.claim = z ∧
      { attacker := a.id, attacked := b.id, type := "normal" }
        ∈ get_attacks (prefChainFw x y z) := by
  have hp : (x, z) ∉ (prefChainFw x y z).preferences := by
    intro hmem
    rcases List.mem_cons.mp hmem with h | h
    · exact hyz (congrArg Prod.snd h).symm
    · rcases List.mem_cons.mp h with h2 | h2
      · exact hxy (congrArg Prod.fst h2)
      · simp at h2
  have hcontains : ((prefChainFw x y z).preferences.contains (x, z)) = false := by
    cases hc : ((prefChainFw x y z).preferences.contains (x, z)) with
    | false => rfl
    | true => exact absurd (List.elem_iff.mp hc) hp
  have hded : dedupF [x, z] = [x, z] := by
    simp [dedupF, Ne.symm hxz]
  have hlookz : List.lookup z (prefChainFw x y z).contraries = some x :=
    lookup_cons_eq
  refine ⟨hp, ?_⟩
  by_cases hord : strLtB x z = true
  · have hsA : sortStrs (dedupF (prefChainFw x y z).assumptions) = [x, z] := by
      show sortStrs (dedupF [x, z]) = [x, z]
      rw [hded]
      unfold sortStrs
      simp [List.insertionSort, List.orderedInsert, hord]
    have hargs := get_arguments_two (prefChainFw x y z) x z rfl hsA
    refine ⟨{ id := mkId 1, claim := x, assumptions := [x], rules := [] },
            { id := mkId 2, claim := z, assumptions := [z], rules := [] },
            by rw [hargs]; simp, by rw [hargs]; simp, rfl, rfl, ?_⟩
    apply normal_attack_mem (prefChainFw x y z) _ _ z
      (by rw [hargs]; simp) (by rw [hargs]; simp) rfl hlookz
    simp only [List.any_cons, List.any_nil, Bool.or_false, hcontains]
  · have hsA : sortStrs (dedupF (prefChainFw x y z).assumptions) = [z, x] := by
      show sortStrs (dedupF [x, z]) = [z, x]
      rw [hded]
      unfold sortStrs
      simp [List.insertionSort, List.orderedInsert, hord]
    have hargs := get_arguments_two (prefChainFw x y z) z x rfl hsA
    refine ⟨{ id := mkId 2, claim := x, assumptions := [x], rules := [] },
            { id := mkId 1, claim := z, assumptions := [z], rules := [] },
            by rw [hargs]; simp, by rw [hargs]; simp, rfl, rfl, ?_⟩
    apply normal_attack_mem (prefChainFw x y z) _ _ z
      (by rw [hargs]; simp) (by rw [hargs]; simp) rfl hlookz
    simp only [List.any_cons, List.any_nil, Bool.or_false, hcontains]

/-! ## Claim C4: the non-circular transformation

The DFS of `is_framework_circular` never reports a cycle on a graph that
admits a strictly decreasing measure along its edges.  The gray set is
empty before every top-level call and is restored by every completed
visit, so a gray neighbor would need a measure both strictly below and at
least that of the current node. -/

theorem dfsScan_no_cycle (g : String → List String) (f : String → Nat)
    (fuel : Nat)
    (hvisit : ∀ v c, (∀ x, c x = Color.gray → f v < f x) → f v < fuel →
      ∃ c2, dfsVisit g fuel v c = (false, c2) ∧
        ∀ x, (c2 x = Color.gray ↔ c x = Color.gray)) :
    ∀ (vs : List String) (u : String) (c : String → Color),
      (∀ v ∈ vs, f v < f u) →
      (∀ x, c x = Color.gray → f u ≤ f x) → f u ≤ fuel →
      ∃ c2, dfsScan (dfsVisit g fuel) vs c = (false, c2) ∧
        ∀ x, (c2 x = Color.gray ↔ c x = Color.gray) := by
  intro vs
  induction vs with
  | nil =>
    intro u c _ _ _
    exact ⟨c, rfl, fun x => Iff.rfl⟩
  | cons v vs ih =>
    intro u c hv hc hfu
    have hvu : f v < f u := hv v (List.mem_cons_self _ _)
    have hvgray : c v ≠ Color.gray := by
      intro hg
      have := hc v hg
      omega
    unfold dfsScan
    rw [if_neg hvgray]
    by_cases hw : c v = Color.white
    · rw [if_pos hw]
      obtain ⟨c2, hvis, hpres⟩ := hvisit v c
        (fun x hx => lt_of_lt_of_le hvu (hc x hx)) (by omega)
      rw [hvis]
      obtain ⟨c3, hscan, hpres2⟩ := ih u c2
        (fun w hw2 => hv w (List.mem_cons_of_mem _ hw2))
        (fun x hx => hc x ((hpres x).mp hx)) hfu
      exact ⟨c3, hscan, fun x => (hpres2 x).trans (hpres x)⟩
    · rw [if_neg hw]
      exact ih u c (fun w hw2 => hv w (List.mem_cons_of_mem _ hw2)) hc hfu

theorem dfsVisit_no_cycle (g : String → List String) (f : String → Nat)
    (hedge : ∀ x y, y ∈ g x → f y < f x) :
    ∀ (fuel : Nat) (u : String) (c : String → Color),
      (∀ x, c x = Color.gray → f u < f x) → f u < fuel →
      ∃ c2, dfsVisit g fuel u c = (false, c2) ∧
        ∀ x, (c2 x = Color.gray ↔ c x = Color.gray) := by
  intro fuel
  induction fuel with
  | zero => intro u c _ h; omega
  | succ fuel ih =>
    intro u c hgray hfu
    obtain ⟨c2, hscan, hpres⟩ := dfsScan_no_cycle g f fuel ih (g u) u
      (setColor c u Color.gray)
      (fun v hv => hedge u v hv)
      (by
        intro x hx
        unfold setColor at hx
        by_cases hxu : x = u
        · subst hxu; omega
        · rw [if_neg hxu] at hx
          exact Nat.le_of_lt (hgray x hx))
      (by omega)
    refine ⟨setColor c2 u Color.black, ?_, ?_⟩
    · unfold dfsVisit
      rw [hscan]
    · intro x
      unfold setColor
      by_cases hxu : x = u
      · subst hxu
        rw [if_pos rfl]
        constructor
        · intro h; exact absurd h (by intro h2; cases h2)
        · intro h
          have := hgray x h
          omega
      · rw [if_neg hxu]
        have := hpres x
        unfold setColor at this
        rw [if_neg hxu] at this
        exact this

theorem dfsForest_no_cycle (g : String → List String) (f : String → Nat)
    (fuel : Nat) (hedge : ∀ x y, y ∈ g x → f y < f x) :
    ∀ (nodes : List String) (c : String → Color),
      (∀ n ∈ nodes, f n < fuel) → (∀ x, c x ≠ Color.gray) →
      dfsForest g fuel nodes c = false := by
  intro nodes
  induction nodes with
  | nil => intro c _ _; rfl
  | cons n rest ih =>
    intro c hn hng
    unfold dfsForest
    by_cases hw : c n = Color.white
    · rw [if_pos hw]
      obtain ⟨c2, hvis, hpres⟩ := dfsVisit_no_cycle g f hedge fuel n c
        (fun x hx => absurd hx (hng x)) (hn n (List.mem_cons_self _ _))
      rw [hvis]
      exact ih c2 (fun m hm => hn m (List.mem_cons_of_mem _ hm))
        (fun x hx => hng x ((hpres x).mp hx))
    · rw [if_neg hw]
      exact ih c (fun m hm => hn m (List.mem_cons_of_mem _ hm)) hng

/-- C4 counterexample.  This framework is circular, and the framework
returned by `make_non_circular` is still circular: the acyclicity
postcondition fails when sentence names collide with the synthetic
`^`-indexed copies. -/
theorem c4_counterexample :
    is_framework_circular circularCexFw = true ∧
    is_framework_circular (make_non_circular circularCexFw) = true :=
  ⟨by decide, by decide⟩

theorem digitChar_ne_caret : ∀ m : Nat, m < 10 → Nat.digitChar m ≠ '^' := by
  decide

theorem caret_not_mem_toDigitsCore :
    ∀ (fuel n : Nat) (ds : List Char), ('^' : Char) ∉ ds →
      ('^' : Char) ∉ Nat.toDigitsCore 10 fuel n ds := by
  intro fuel
  induction fuel with
  | zero => intro n ds h; simpa [Nat.toDigitsCore] using h
  | succ fuel ih =>
    intro n ds h
    simp only [Nat.toDigitsCore]
    have hd : Nat.digitChar (n % 10) ≠ '^' :=
      digitChar_ne_caret _ (Nat.mod_lt _ (by omega))
    by_cases h0 : n / 10 = 0
    · simp only [h0, if_true]
      intro hmem
      rcases List.mem_cons.mp hmem with heq | hmem2
      · exact hd heq.symm
      · exact h hmem2
    · simp only [h0, if_false]
      apply ih
      intro hmem
      rcases List.mem_cons.mp hmem with heq | hmem2
      · exact hd heq.symm
      · exact h hmem2

theorem caret_not_mem_repr (n : Nat) : ('^' : Char) ∉ (Nat.repr n).data :=
  caret_not_mem_toDigitsCore (n + 1) n [] (by simp)

theorem indexName_data (s : String) (i : Nat) :
    (indexName s i).data = s.data ++ '^' :: (Nat.repr i).data := by
  unfold indexName
  simp [String.data_append]

theorem caret_mem_indexName (s : String) (i : Nat) :
    ('^' : Char) ∈ (indexName s i).data := by
  rw [indexName_data]
  simp

theorem caret_split_list :
    ∀ (as bs u v : List Char), ('^' : Char) ∉ as → ('^' : Char) ∉ bs →
      as ++ '^' :: u = bs ++ '^' :: v → as = bs ∧ u = v := by
  intro as
  induction as with
  | nil =>
    intro bs u v _ hbs h
    cases bs with
    | nil => simpa using h
    | cons b bs2 =>
      simp only [List.nil_append, List.cons_append, List.cons.injEq] at h
      exact absurd (List.mem_cons_self b bs2) (h.1 ▸ hbs)
  | cons a as2 ih =>
    intro bs u v has hbs h
    cases bs with
    | nil =>
      simp only [List.cons_append, List.nil_append, List.cons.injEq] at h
      exact absurd (List.mem_cons_self a as2) (h.1.symm ▸ has)
    | cons b bs2 =>
      simp only [List.cons_append, List.cons.injEq] at h
      obtain ⟨heq, hd⟩ := ih bs2 u v
        (fun hm => has (List.mem_cons_of_mem _ hm))
        (fun hm => hbs (List.mem_cons_of_mem _ hm)) h.2
      exact ⟨by rw [h.1, heq], hd⟩

theorem caret_clean_of_eq {as bs u v : List Char}
    (hu : ('^' : Char) ∉ u) (hbs : ('^' : Char) ∉ bs)
    (hv : ('^' : Char) ∉ v) (h : as ++ '^' :: u = bs ++ '^' :: v) :
    ('^' : Char) ∉ as := by
  have hc := congrArg (List.count '^') h
  simp only [List.count_append, List.count_cons_self] at hc
  have h1 : List.count '^' u = 0 := List.count_eq_zero.mpr hu
  have h2 : List.count '^' bs = 0 := List.count_eq_zero.mpr hbs
  have h3 : List.count '^' v = 0 := List.count_eq_zero.mpr hv
  have h4 : List.count '^' as = 0 := by omega
  exact List.count_eq_zero.mp h4

theorem indexName_inj {s t : String} {i j : Nat}
    (hs : ('^' : Char) ∉ s.data) (ht : ('^' : Char) ∉ t.data)
    (h : indexName s i = indexName t j) : s = t ∧ i = j := by
  have hd := congrArg String.data h
  rw [indexName_data, indexName_data] at hd
  obtain ⟨h1, h2⟩ := caret_split_list _ _ _ _ hs ht hd
  exact ⟨String.ext h1, nat_repr_inj (String.ext h2)⟩

theorem levelOf_clean (S : List String) (k : Nat) (x : String)
    (hx : ('^' : Char) ∉ x.data) : levelOf S k x = k := by
  unfold levelOf
  have hnone : (List.range' 1 (k - 1)).find?
      (fun i => S.any (fun s => x == indexName s i)) = none := by
    rw [List.find?_eq_none]
    intro i _
    intro hany
    obtain ⟨s, hs, hbeq⟩ := List.any_eq_true.mp hany
    have hxe : x = indexName s i := beq_iff_eq.mp hbeq
    exact hx (hxe ▸ caret_mem_indexName s i)
  rw [hnone]

theorem find_eq_some_unique {p : Nat → Bool} :
    ∀ {l : List Nat} {i : Nat}, i ∈ l → p i = true →
      (∀ j ∈ l, p j = true → j = i) → l.find? p = some i := by
  intro l
  induction l with
  | nil => intro i hi; simp at hi
  | cons j0 rest ih =>
    intro i hi hpi huniq
    by_cases hp0 : p j0 = true
    · rw [List.find?_cons_of_pos _ hp0]
      exact congrArg some (huniq j0 (List.mem_cons_self _ _) hp0).symm ▸ rfl
    · rw [List.find?_cons_of_neg _ (by simpa using hp0)]
      rcases List.mem_cons.mp hi with rfl | hmem
      · exact absurd hpi hp0
      · exact ih hmem hpi (fun j hj hpj => huniq j (List.mem_cons_of_mem _ hj) hpj)

theorem levelOf_indexed (S : List String) (k : Nat)
    (hSclean : ∀ s ∈ S, ('^' : Char) ∉ s.data) {s : String} {i : Nat}
    (hs : s ∈ S) (hi : i ∈ List.range' 1 (k - 1)) :
    levelOf S k (indexName s i) = i := by
  unfold levelOf
  rw [find_eq_some_unique hi
    (List.any_eq_true.mpr ⟨s, hs, beq_self_eq_true (indexName s i)⟩)
    (by
      intro j hj hpj
      obtain ⟨t, ht, hbeq⟩ := List.any_eq_true.mp hpj
      exact (indexName_inj (hSclean s hs) (hSclean t ht)
        (beq_iff_eq.mp hbeq)).2.symm)]

theorem countP_le_of_imp {α : Type} {p q : α → Bool} :
    ∀ {l : List α}, (∀ x ∈ l, p x = true → q x = true) →
      List.countP p l ≤ List.countP q l := by
  intro l
  induction l with
  | nil => intro _; simp
  | cons x xs ih =>
    intro h
    rw [List.countP_cons, List.countP_cons]
    have hxs := ih (fun w hw => h w (List.mem_cons_of_mem _ hw))
    by_cases hp : p x = true
    · rw [if_pos hp, if_pos (h x (List.mem_cons_self _ _) hp)]
      omega
    · rw [if_neg hp]
      split <;> omega

theorem countP_lt_of_witness {α : Type} {p q : α → Bool} {l : List α}
    (himp : ∀ x ∈ l, p x = true → q x = true) {a : α} (ha : a ∈ l)
    (hqa : q a = true) (hpa : p a = false) :
    List.countP p l < List.countP q l := by
  induction l with
  | nil => simp at ha
  | cons x xs ih =>
    rw [List.countP_cons, List.countP_cons]
    rcases List.mem_cons.mp ha with rfl | hmem
    · rw [hpa, hqa]
      have := countP_le_of_imp (fun w hw => himp w (List.mem_cons_of_mem _ hw))
      simp only [if_true, Bool.false_eq_true, if_false]
      omega
    · have hlt := ih (fun w hw => himp w (List.mem_cons_of_mem _ hw)) hmem
      by_cases hp : p x = true
      · rw [if_pos hp, if_pos (himp x (List.mem_cons_self _ _) hp)]
        omega
      · rw [if_neg hp]
        split <;> omega

theorem mem_graphEdges_elim {F2 : Framework} {u v : String}
    (h : (u, v) ∈ graphEdges F2) :
    ∃ r ∈ F2.rules, r.2.1 = u ∧ v ∈ r.2.2 ∧
      nonAssumB F2 u = true ∧ nonAssumB F2 v = true := by
  unfold graphEdges at h
  obtain ⟨r, hr, hmem⟩ := List.mem_flatMap.mp h
  by_cases hna : nonAssumB F2 r.2.1 = true
  · rw [if_pos hna] at hmem
    obtain ⟨b, hb, heq⟩ := List.mem_map.mp hmem
    have hufst : r.2.1 = u := congrArg Prod.fst heq
    have hv : b = v := congrArg Prod.snd heq
    have hbf := List.mem_filter.mp hb
    exact ⟨r, hr, hufst, hv ▸ hbf.1, hufst ▸ hna, hv ▸ hbf.2⟩
  · rw [if_neg hna] at hmem
    simp at hmem

theorem edges_sub_nodes {F2 : Framework} {u v : String}
    (h : (u, v) ∈ graphEdges F2) :
    u ∈ graphNodes F2 ∧ v ∈ graphNodes F2 := by
  unfold graphEdges at h
  obtain ⟨r, hr, hmem⟩ := List.mem_flatMap.mp h
  by_cases hna : nonAssumB F2 r.2.1 = true
  · rw [if_pos hna] at hmem
    obtain ⟨b, hb, heq⟩ := List.mem_map.mp hmem
    have hufst : r.2.1 = u := congrArg Prod.fst heq
    have hv : b = v := congrArg Prod.snd heq
    constructor
    · unfold graphNodes
      rw [mem_dedupF]
      apply List.mem_flatMap.mpr ⟨r, hr, ?_⟩
      apply List.mem_append_left
      rw [if_pos hna, hufst]
      exact List.mem_singleton_self u
    · unfold graphNodes
      rw [mem_dedupF]
      apply List.mem_flatMap.mpr ⟨r, hr, ?_⟩
      apply List.mem_append_right
      exact hv ▸ hb
  · rw [if_neg hna] at hmem
    simp at hmem

theorem mem_graphNeighbors_elim {F2 : Framework} {u y : String}
    (h : y ∈ graphNeighbors F2 u) : (u, y) ∈ graphEdges F2 := by
  unfold graphNeighbors at h
  obtain ⟨e, he, hf⟩ := List.mem_filterMap.mp h
  by_cases heq : e.1 = u
  · rw [if_pos heq] at hf
    have : e = (u, y) := Prod.ext heq (Option.some.inj hf)
    exact this ▸ he
  · rw [if_neg heq] at hf
    cases hf

theorem mem_graphNodes_nonAssum {F2 : Framework} {x : String}
    (h : x ∈ graphNodes F2) : nonAssumB F2 x = true := by
  unfold graphNodes at h
  rw [mem_dedupF] at h
  obtain ⟨r, _, hmem⟩ := List.mem_flatMap.mp h
  rcases List.mem_append.mp hmem with h1 | h1
  · by_cases hna : nonAssumB F2 r.2.1 = true
    · rw [if_pos hna] at h1
      have := List.mem_singleton.mp h1
      exact this ▸ hna
    · rw [if_neg hna] at h1
      simp at h1
  · exact (List.mem_filter.mp h1).2

theorem nonAssumB_iff {F2 : Framework} {x : String} :
    nonAssumB F2 x = true ↔ x ∈ F2.language ∧ x ∉ F2.assumptions := by
  unfold nonAssumB
  rw [Bool.and_eq_true, Bool.not_eq_true']
  constructor
  · rintro ⟨h1, h2⟩
    refine ⟨contains_iff.mp h1, fun hm => ?_⟩
    rw [contains_iff.mpr hm] at h2
    cases h2
  · rintro ⟨h1, h2⟩
    refine ⟨contains_iff.mpr h1, ?_⟩
    cases hc : F2.assumptions.contains x with
    | false => rfl
    | true => exact absurd (contains_iff.mp hc) h2

theorem mnc_language_eq (F : Framework)
    (hk : (sortedDiff F.language F.assumptions).length ≠ 0) :
    (make_non_circular F).language
      = F.language ++ (sortedDiff F.language F.assumptions).flatMap (fun s =>
          (List.range' 1 ((sortedDiff F.language F.assumptions).length - 1)).map
            (fun i => indexName s i)) := by
  simp only [make_non_circular]
  rw [if_neg hk]

theorem mnc_assumptions_eq (F : Framework)
    (hk : (sortedDiff F.language F.assumptions).length ≠ 0) :
    (make_non_circular F).assumptions = F.assumptions := by
  simp only [make_non_circular]
  rw [if_neg hk]

theorem mnc_rules_eq (F : Framework)
    (hk : (sortedDiff F.language F.assumptions).length ≠ 0) :
    (make_non_circular F).rules
      = (sorted_rules F).flatMap
          (mncRuleCopies F (sortedDiff F.language F.assumptions).length) := by
  simp only [make_non_circular]
  rw [if_neg hk]

theorem mnc_edge_level (F : Framework)
    (hlang : ∀ s ∈ F.language, ('^' : Char) ∉ s.data)
    (hheads : ∀ r ∈ F.rules, ('^' : Char) ∉ r.2.1.data)
    (hk : (sortedDiff F.language F.assumptions).length ≠ 0) :
    ∀ u v, (u, v) ∈ graphEdges (make_non_circular F) →
      levelOf (sortedDiff F.language F.assumptions)
          (sortedDiff F.language F.assumptions).length v
        < levelOf (sortedDiff F.language F.assumptions)
            (sortedDiff F.language F.assumptions).length u := by
  intro u v hedge
  obtain ⟨r2, hr2, hhead, hbody, hnau, hnav⟩ := mem_graphEdges_elim hedge
  rw [mnc_rules_eq F hk] at hr2
  obtain ⟨r, hrs, hcopy⟩ := List.mem_flatMap.mp hr2
  have hrF : r ∈ F.rules := (List.perm_insertionSort _ F.rules).mem_iff.mp hrs
  have hSclean : ∀ s ∈ sortedDiff F.language F.assumptions,
      ('^' : Char) ∉ s.data :=
    fun s hs => hlang s (mem_sortedDiff.mp hs).1
  have hk1 : 1 ≤ (sortedDiff F.language F.assumptions).length :=
    Nat.pos_of_ne_zero hk
  unfold mncRuleCopies at hcopy
  by_cases hat : (r.2.2.all fun p => F.assumptions.contains p) = true
  · rw [if_pos hat] at hcopy
    obtain ⟨i, hi, heq⟩ := List.mem_map.mp hcopy
    exfalso
    have hbody2 : v ∈ r.2.2 := by
      have hb : r2.2.2 = r.2.2 := by rw [← heq]
      exact hb ▸ hbody
    have hcont : F.assumptions.contains v = true :=
      List.all_eq_true.mp hat v hbody2
    have hnav2 := nonAssumB_iff.mp hnav
    rw [mnc_assumptions_eq F hk] at hnav2
    exact hnav2.2 (contains_iff.mp hcont)
  · rw [if_neg hat] at hcopy
    obtain ⟨i, hi, heq⟩ := List.mem_map.mp hcopy
    have hir := List.mem_range'_1.mp hi
    have hbody2 : v ∈ r.2.2.map (fun p =>
        if F.assumptions.contains p then p
        else if i - 1 < (sortedDiff F.language F.assumptions).length then
          indexName p (i - 1) else p) := by
      have hb : r2.2.2 = r.2.2.map (fun p =>
          if F.assumptions.contains p then p
          else if i - 1 < (sortedDiff F.language F.assumptions).length then
            indexName p (i - 1) else p) := by rw [← heq]
      exact hb ▸ hbody
    obtain ⟨p, hp, hpe⟩ := List.mem_map.mp hbody2
    have hnav2 := nonAssumB_iff.mp hnav
    by_cases hpc : F.assumptions.contains p = true
    · exfalso
      rw [if_pos hpc] at hpe
      rw [mnc_assumptions_eq F hk] at hnav2
      exact hnav2.2 (hpe ▸ contains_iff.mp hpc)
    · rw [if_neg (by simpa using hpc),
          if_pos (by omega : i - 1 < (sortedDiff F.language F.assumptions).length)]
        at hpe
      have hvlang : v ∈ (make_non_circular F).language := hnav2.1
      rw [mnc_language_eq F hk] at hvlang
      rcases List.mem_append.mp hvlang with hv1 | hv1
      · exact absurd (hpe ▸ caret_mem_indexName p (i - 1)) (hlang v hv1)
      · obtain ⟨s, hsS, hsm⟩ := List.mem_flatMap.mp hv1
        obtain ⟨j, hj, hveq⟩ := List.mem_map.mp hsm
        have hii : indexName p (i - 1) = indexName s j := by rw [hpe, hveq]
        have hdata : p.data ++ '^' :: (Nat.repr (i - 1)).data
            = s.data ++ '^' :: (Nat.repr j).data := by
          have hd := congrArg String.data hii
          rw [indexName_data, indexName_data] at hd
          exact hd
        have hpclean : ('^' : Char) ∉ p.data :=
          caret_clean_of_eq (caret_not_mem_repr _) (hSclean s hsS)
            (caret_not_mem_repr _) hdata
        obtain ⟨hps, hij⟩ := caret_split_list _ _ _ _ hpclean (hSclean s hsS) hdata
        have hj_eq : j = i - 1 := (nat_repr_inj (String.ext hij)).symm
        have hlevv : levelOf (sortedDiff F.language F.assumptions)
            (sortedDiff F.language F.assumptions).length v = i - 1 := by
          rw [← hveq, levelOf_indexed _ _ hSclean hsS hj, hj_eq]
        have hheadeq : u = (if i < (sortedDiff F.language F.assumptions).length
            then indexName r.2.1 i else r.2.1) := by
          rw [← hhead, ← heq]
        by_cases hik : i < (sortedDiff F.language F.assumptions).length
        · rw [if_pos hik] at hheadeq
          have hulang : u ∈ (make_non_circular F).language :=
            (nonAssumB_iff.mp hnau).1
          rw [mnc_language_eq F hk] at hulang
          rcases List.mem_append.mp hulang with hu1 | hu1
          · exact absurd (hheadeq ▸ caret_mem_indexName r.2.1 i)
              (hlang u hu1)
          · obtain ⟨t, htS, htm⟩ := List.mem_flatMap.mp hu1
            obtain ⟨j2, hj2, hueq⟩ := List.mem_map.mp htm
            have hinj := indexName_inj (hheads r hrF) (hSclean t htS)
              (by rw [← hheadeq, hueq])
            have hlevu : levelOf (sortedDiff F.language F.assumptions)
                (sortedDiff F.language F.assumptions).length u = i := by
              rw [← hueq, levelOf_indexed _ _ hSclean htS hj2, ← hinj.2]
            omega
        · have hieq : i = (sortedDiff F.language F.assumptions).length := by
            omega
          rw [if_neg hik] at hheadeq
          have hlevu : levelOf (sortedDiff F.language F.assumptions)
              (sortedDiff F.language F.assumptions).length u
              = (sortedDiff F.language F.assumptions).length := by
            rw [hheadeq]
            exact levelOf_clean _ _ _ (hheads r hrF)
          omega

/-- C4 (amended).  For every circular framework in which no sentence of the
language and no rule head contains the character `^` (no collision with
the synthetic level-indexed names), the framework returned by
`make_non_circular` is not circular: every dependency edge of the unfolded
framework strictly decreases the level measure, so the DFS finds no
cycle.  The naming restriction is forced by the counterexample. -/
theorem c4_amended_acyclic (F : Framework)
    (hlang : ∀ s ∈ F.language, ('^' : Char) ∉ s.data)
    (hheads : ∀ r ∈ F.rules, ('^' : Char) ∉ r.2.1.data)
    (hcirc : is_framework_circular F = true) :
    is_framework_circular (make_non_circular F) = false := by
  by_cases hk : (sortedDiff F.language F.assumptions).length = 0
  · exfalso
    have hnodes : graphNodes F = [] := by
      rw [List.eq_nil_iff_forall_not_mem]
      intro x hx
      have hna := nonAssumB_iff.mp (mem_graphNodes_nonAssum hx)
      have hmem : x ∈ sortedDiff F.language F.assumptions :=
        mem_sortedDiff.mpr hna
      rw [List.length_eq_zero.mp hk] at hmem
      simp at hmem
    have hfalse : is_framework_circular F = false := by
      show dfsForest (graphNeighbors F) ((graphNodes F).length + 1)
        (graphNodes F) (fun _ => Color.white) = false
      rw [hnodes]
      rfl
    rw [hfalse] at hcirc
    cases hcirc
  · show dfsForest (graphNeighbors (make_non_circular F))
      ((graphNodes (make_non_circular F)).length + 1)
      (graphNodes (make_non_circular F)) (fun _ => Color.white) = false
    refine dfsForest_no_cycle (graphNeighbors (make_non_circular F))
      (fun x => List.countP
        (fun y => levelOf (sortedDiff F.language F.assumptions)
            (sortedDiff F.language F.assumptions).length y
          < levelOf (sortedDiff F.language F.assumptions)
            (sortedDiff F.language F.assumptions).length x)
        (graphNodes (make_non_circular F)))
      ((graphNodes (make_non_circular F)).length + 1)
      ?_ (graphNodes (make_non_circular F)) (fun _ => Color.white)
      ?_ (fun x h => Color.noConfusion h)
    · intro x y hy
      have hedge := mem_graphNeighbors_elim hy
      have hlev := mnc_edge_level F hlang hheads hk x y hedge
      have hnn := edges_sub_nodes hedge
      apply countP_lt_of_witness ?_ hnn.2 ?_ ?_
      · intro w _ hpw
        rw [decide_eq_true_eq] at hpw
        rw [decide_eq_true_eq]
        omega
      · rw [decide_eq_true_eq]
        exact hlev
      · simp
    · intro n _
      have hle := List.countP_le_length
        (fun y => decide (levelOf (sortedDiff F.language F.assumptions)
            (sortedDiff F.language F.assumptions).length y
          < levelOf (sortedDiff F.language F.assumptions)
              (sortedDiff F.language F.assumptions).length n))
        (l := graphNodes (make_non_circular F))
      exact Nat.lt_succ_of_le hle

theorem c4_witness :
    is_framework_circular (make_non_circular scenario2Fw) = false :=
  c4_amended_acyclic scenario2Fw (by decide) (by decide) (by decide)

theorem c6_witness :
    ((("x" : String), ("z" : String)) ∉ (prefChainFw "x" "y" "z").preferences) ∧
    ∃ a b : Argument, a ∈ get_arguments (prefChainFw "x" "y" "z") ∧
      b ∈ get_arguments (prefChainFw "x" "y" "z") ∧ a.claim = "x" ∧ b.claim = "z" ∧
      { attacker := a.id, attacked := b.id, type := "normal" }
        ∈ get_attacks (prefChainFw "x" "y" "z") :=
  c6_direct_pair_only "x" "y" "z" (by decide) (by decide) (by decide)

/-! ## Claim C8: the core is total

`parse_input` can only fail at the three tuple unpackings of
`split(sep, 1)`, each guarded by the corresponding `in` test; the
argument fixed point saturates within its fuel; and every attack record
originates from an assumption with a declared contrary. -/

theorem pySplit1E_ok {s sep : String} (h : pyIn sep s = true) :
    ∃ ab, pySplit1E s sep = Except.ok ab := by
  unfold pyIn at h
  obtain ⟨i, hi⟩ := Option.isSome_iff_exists.mp h
  unfold pySplit1E
  rw [hi]
  exact ⟨_, rfl⟩

theorem bind_ok_eq {α β : Type} (a : α) (f : α → Except String β) :
    (Except.ok a >>= f) = f a := rfl

theorem parseLine_ok (fw : Framework) (line : String) :
    ∃ F2, parseLine fw line = Except.ok F2 := by
  unfold parseLine
  by_cases h1 : pyStartsWith line "L:" = true
  · rw [if_pos h1]; exact ⟨_, rfl⟩
  · rw [if_neg h1]
    by_cases h2 : pyStartsWith line "A:" = true
    · rw [if_pos h2]; exact ⟨_, rfl⟩
    · rw [if_neg h2]
      by_cases h3 : (pyStartsWith line "C(" && pyIn ":" line) = true
      · rw [if_pos h3]
        obtain ⟨⟨left, right⟩, hsplit⟩ :=
          pySplit1E_ok (Bool.and_eq_true .. |>.mp h3 |>.2)
        rw [hsplit]
        exact ⟨_, rfl⟩
      · rw [if_neg h3]
        by_cases h4 : (pyStartsWith line "[" && pyIn "]:" line) = true
        · rw [if_pos h4]
          obtain ⟨⟨ridPart, rest⟩, hsplit⟩ :=
            pySplit1E_ok (Bool.and_eq_true .. |>.mp h4 |>.2)
          rw [hsplit, bind_ok_eq]
          dsimp only
          by_cases h5 : pyIn "<-" rest = true
          · rw [if_pos h5]
            obtain ⟨⟨headPart, bodyPart⟩, hsplit2⟩ := pySplit1E_ok h5
            rw [hsplit2]
            exact ⟨_, rfl⟩
          · rw [if_neg h5]
            exact ⟨_, rfl⟩
        · rw [if_neg h4]
          by_cases h6 : pyStartsWith line "PREF:" = true
          · rw [if_pos h6]
            by_cases h7 : (pyStrip (pyDrop line 5)).data.isEmpty = true
            · rw [if_pos h7]; exact ⟨_, rfl⟩
            · rw [if_neg h7]; exact ⟨_, rfl⟩
          · rw [if_neg h6]; exact ⟨_, rfl⟩

theorem foldlM_parse_ok :
    ∀ (lines : List String) (fw : Framework),
      ∃ F2, lines.foldlM parseLine fw = Except.ok F2 := by
  intro lines
  induction lines with
  | nil => intro fw; exact ⟨fw, rfl⟩
  | cons l ls ih =>
    intro fw
    obtain ⟨f1, h1⟩ := parseLine_ok fw l
    rw [List.foldlM_cons]
    rw [h1]
    exact ih f1

theorem parse_input_total (text : String) :
    ∃ Fw : Framework, parse_input text = Except.ok Fw :=
  foldlM_parse_ok _ emptyFramework

/-! attack record provenance -/

theorem mem_normalRecords_full {F : Framework} {a b : Argument} {at2 : Attack}
    (hx : at2 ∈ normalRecords F a b) :
    at2 = { attacker := a.id, attacked := b.id, type := "normal" } ∧
    ∃ s ∈ b.assumptions, List.lookup s F.contraries = some a.claim := by
  obtain ⟨assB, hassB, hf⟩ := List.mem_filterMap.mp hx
  cases hlook : List.lookup assB F.contraries with
  | none => rw [hlook] at hf; simp at hf
  | some contr =>
    rw [hlook] at hf
    dsimp only at hf
    by_cases hc : contr = a.claim
    · rw [if_pos hc] at hf
      by_cases hblock :
          (a.assumptions.any (fun assA => F.preferences.contains (assA, assB)))
            = true
      · rw [if_pos hblock] at hf
        simp at hf
      · rw [if_neg hblock] at hf
        exact ⟨(Option.some.inj hf).symm, assB, hassB, hc ▸ hlook⟩
    · rw [if_neg hc] at hf
      simp at hf

theorem mem_reverseRecords_full {F : Framework} {a b : Argument} {at2 : Attack}
    (hx : at2 ∈ reverseRecords F a b) :
    at2 = { attacker := b.id, attacked := a.id, type := "reverse" } ∧
    ∃ s ∈ a.assumptions, List.lookup s F.contraries = some b.claim := by
  obtain ⟨assA, hassA, hf⟩ := List.mem_filterMap.mp hx
  cases hlook : List.lookup assA F.contraries with
  | none => rw [hlook] at hf; simp at hf
  | some contr =>
    rw [hlook] at hf
    dsimp only at hf
    by_cases hc : contr = b.claim
    · rw [if_pos hc] at hf
      by_cases hen :
          (b.assumptions.any (fun assB => F.preferences.contains (assB, assA)))
            = true
      · rw [if_pos hen] at hf
        exact ⟨(Option.some.inj hf).symm, assA, hassA, hc ▸ hlook⟩
      · rw [if_neg hen] at hf
        simp at hf
    · rw [if_neg hc] at hf
      simp at hf

/-! saturation: the fixed point really is a fixed point -/

theorem findByClaim_append_some {l1 l2 : List Argument} {c : String}
    {a : Argument} (h : findByClaim l1 c = some a) :
    findByClaim (l1 ++ l2) c = some a := by
  unfold findByClaim at h ⊢
  rw [List.find?_append, h]
  rfl

theorem findByClaim_none_of_prefix {args l : List Argument} {c : String}
    (hpre : args <+: l) (h : findByClaim l c = none) :
    findByClaim args c = none := by
  cases hfind : findByClaim args c with
  | none => rfl
  | some a =>
    obtain ⟨t, rfl⟩ := hpre
    rw [findByClaim_append_some hfind] at h
    cases h

theorem stepRule_flag (st : List Argument × Bool) (r : Rule)
    (h : st.2 = true) : (stepRule st r).2 = true := by
  rcases stepRule_cases st r with heq | ⟨-, a, -, -, heq⟩ <;> rw [heq]
  exact h

theorem foldl_step_flag :
    ∀ (rs : List Rule) (st : List Argument × Bool), st.2 = true →
      (rs.foldl stepRule st).2 = true := by
  intro rs
  induction rs with
  | nil => intro st h; exact h
  | cons r rs ih => intro st h; exact ih _ (stepRule_flag st r h)

theorem foldl_step_unchanged :
    ∀ (rs : List Rule) (st : List Argument × Bool),
      (rs.foldl stepRule st).2 = false → rs.foldl stepRule st = st := by
  intro rs
  induction rs with
  | nil => intro st _; rfl
  | cons r rs ih =>
    intro st h
    rw [List.foldl_cons] at h ⊢
    rcases stepRule_cases st r with heq | ⟨-, a, -, -, heq⟩
    · rw [heq] at h ⊢
      exact ih st h
    · rw [heq] at h
      rw [foldl_step_flag rs _ rfl] at h
      cases h

theorem foldl_step_prefix :
    ∀ (rs : List Rule) (st : List Argument × Bool),
      st.1 <+: (rs.foldl stepRule st).1 := by
  intro rs
  induction rs with
  | nil => intro st; exact List.prefix_refl _
  | cons r rs ih =>
    intro st
    rw [List.foldl_cons]
    rcases stepRule_cases st r with heq | ⟨-, a, -, -, heq⟩
    · rw [heq]; exact ih st
    · rw [heq]
      exact List.IsPrefix.trans ⟨[a], rfl⟩ (ih (st.1 ++ [a], true))

theorem foldl_step_measure (rs : List Rule) :
    ∀ (rs2 : List Rule) (st : List Argument × Bool) (args : List Argument),
      (∀ r ∈ rs2, r ∈ rs) → args <+: st.1 →
      (st.2 = true → headsOpen rs st.1 < headsOpen rs args) →
      ((rs2.foldl stepRule st).2 = true →
        headsOpen rs (rs2.foldl stepRule st).1 < headsOpen rs args) := by
  intro rs2
  induction rs2 with
  | nil => intro st args _ _ h; exact h
  | cons r rs2 ih =>
    intro st args hsub hpre hflag
    rw [List.foldl_cons]
    rcases stepRule_cases st r with heq | ⟨hnone, a, hclaim, -, heq⟩
    · rw [heq]
      exact ih st args (fun w hw => hsub w (List.mem_cons_of_mem _ hw)) hpre hflag
    · rw [heq]
      apply ih _ args (fun w hw => hsub w (List.mem_cons_of_mem _ hw))
        (hpre.trans ⟨[a], rfl⟩)
      intro _
      apply countP_lt_of_witness ?_ (hsub r (List.mem_cons_self _ _)) ?_ ?_
      · intro w _ hp
        rw [Option.isNone_iff_eq_none] at hp ⊢
        exact findByClaim_none_of_prefix (hpre.trans ⟨[a], rfl⟩) hp
      · rw [Option.isNone_iff_eq_none]
        exact findByClaim_none_of_prefix hpre hnone
      · have hsome : findByClaim (st.1 ++ [a]) r.2.1 = some a := by
          unfold findByClaim
          rw [List.find?_append]
          rw [show List.find? (fun x => x.claim == r.2.1) st.1 = none from hnone]
          simp [List.find?, hclaim]
        rw [hsome]
        rfl

theorem onePass_measure (rs : List Rule) (args : List Argument)
    (h : (onePass rs args).2 = true) :
    headsOpen rs (onePass rs args).1 < headsOpen rs args := by
  have hgen := foldl_step_measure rs rs (args, false) args (fun _ hw => hw)
    (List.prefix_refl _) (by intro h2; cases h2)
  exact hgen h

theorem deriveLoop_fix (rs : List Rule) :
    ∀ (fuel : Nat) (args : List Argument), headsOpen rs args < fuel →
      onePass rs (deriveLoop rs fuel args) = (deriveLoop rs fuel args, false) := by
  intro fuel
  induction fuel with
  | zero => intro args h; omega
  | succ fuel ih =>
    intro args hm
    unfold deriveLoop
    cases hop : onePass rs args with
    | mk args2 changed =>
      cases changed with
      | false =>
        have h2 : (onePass rs args).2 = false := by rw [hop]
        have hunch : onePass rs args = (args, false) :=
          foldl_step_unchanged rs (args, false) h2
        have hargs2 : args2 = args := by
          rw [hop] at hunch
          exact congrArg Prod.fst hunch
        rw [hargs2]
        rw [hop] at hunch
        rw [hargs2] at hop
        exact hop
      | true =>
        apply ih
        have hmea := onePass_measure rs args (by rw [hop])
        rw [hop] at hmea
        have hmea2 : headsOpen rs args2 < headsOpen rs args := hmea
        omega

theorem derivation_saturated (F : Framework) :
    onePass (sorted_rules F) (argumentsRaw F) = (argumentsRaw F, false) := by
  apply deriveLoop_fix
  have h1 : headsOpen (sorted_rules F)
      (baseArgsAux 0 (sortStrs (dedupF F.assumptions)))
      ≤ (sorted_rules F).length :=
    List.countP_le_length _
  have h2 : (sorted_rules F).length = F.rules.length :=
    List.length_insertionSort _ _
  omega

/-- C8.  The core raises no exception and always produces a result:
`parse_input` accepts any input text (unrecognized lines are dropped and
the guarded unpackings never fail, so a framework is always returned);
the argument fixed point is saturated (one further pass over the rules
changes nothing, so the derivation loop genuinely terminates at a fixed
point); and every attack record arises from an assumption with a declared
contrary, so an assumption with no declared contrary never attacks nor is
attacked through that assumption. -/
theorem c8_core_total :
    (∀ text : String, ∃ Fw : Framework, parse_input text = Except.ok Fw) ∧
    (∀ F : Framework,
      onePass (sorted_rules F) (argumentsRaw F) = (argumentsRaw F, false)) ∧
    (∀ (F : Framework) (atk : Attack), atk ∈ get_attacks F →
      ∃ a ∈ get_arguments F, ∃ b ∈ get_arguments F,
        (atk = { attacker := a.id, attacked := b.id, type := "normal" } ∧
          ∃ s ∈ b.assumptions, List.lookup s F.contraries = some a.claim) ∨
        (atk = { attacker := b.id, attacked := a.id, type := "reverse" } ∧
          ∃ s ∈ a.assumptions, List.lookup s F.contraries = some b.claim)) := by
  refine ⟨parse_input_total, derivation_saturated, ?_⟩
  intro F atk hatk
  have hflat : get_attacks F
      = (get_arguments F).flatMap (fun x => (get_arguments F).flatMap
          (fun y => normalRecords F x y ++ reverseRecords F x y)) := rfl
  rw [hflat] at hatk
  obtain ⟨a, ha, h1⟩ := List.mem_flatMap.mp hatk
  obtain ⟨b, hb, h2⟩ := List.mem_flatMap.mp h1
  rcases List.mem_append.mp h2 with h3 | h3
  · obtain ⟨heq, s, hs, hl⟩ := mem_normalRecords_full h3
    exact ⟨a, ha, b, hb, Or.inl ⟨heq, s, hs, hl⟩⟩
  · obtain ⟨heq, s, hs, hl⟩ := mem_reverseRecords_full h3
    exact ⟨a, ha, b, hb, Or.inr ⟨heq, s, hs, hl⟩⟩

theorem c8_witness :
    ∃ a ∈ get_arguments exampleFw, ∃ b ∈ get_arguments exampleFw,
      (({ attacker := "a2", attacked := "a1", type := "normal" } : Attack)
          = { attacker := a.id, attacked := b.id, type := "normal" } ∧
        ∃ s ∈ b.assumptions,
          List.lookup s exampleFw.contraries = some a.claim) ∨
      (({ attacker := "a2", attacked := "a1", type := "normal" } : Attack)
          = { attacker := b.id, attacked := a.id, type := "reverse" } ∧
        ∃ s ∈ a.assumptions,
          List.lookup s exampleFw.contraries = some b.claim) :=
  c8_core_total.2.2 exampleFw
    { attacker := "a2", attacked := "a1", type := "normal" } (by decide)

end ABA
